import Mathlib

/-!
Shallow embedding of the Interaction-Transformation symbolic-regression core
of `src/SymbolicRegression.js`.

JavaScript numbers are modelled exactly: finite values as rationals, plus the
three non-finite values `Infinity`, `-Infinity`, `NaN`.  The eight fixed unary
functions are a closed enumeration; the transcendental ones (`sin`, `cos`,
`tan`, `sqrt`, `exp`, `log`) are parametrised by an interpretation
`FnInterp` giving their (finite) value on finite inputs, while their clamping
branches and their behaviour on non-finite inputs are taken literally from the
source (`x => x<0 ? 0 : Math.sqrt(x)`, etc.).  `Math.random()` is modelled as
an ambient stream `g : Nat -> Rat` of draws in `[0,1)` together with a cursor
that every random operation threads through.  Unbounded retry loops of the
source (the all-zero redraw in `buildRandIT`, the `while` loop of `SYMTREE`,
the recursion of `simplifyIT` on ill-formed inputs) take explicit fuel and
return `Option`/fall back, mirroring the fact that the JS code simply would
not terminate there.
-/

namespace SymReg

/-- A JavaScript number: a finite rational or one of the non-finite values. -/
inductive JsVal where
  | num (q : ℚ)
  | inf
  | ninf
  | nan
deriving DecidableEq, Repr

namespace JsVal

/-- IEEE-style addition (exact on finite values). -/
def add : JsVal → JsVal → JsVal
  | num a, num b => num (a + b)
  | num _, inf => inf
  | num _, ninf => ninf
  | num _, nan => nan
  | inf, num _ => inf
  | inf, inf => inf
  | inf, ninf => nan
  | inf, nan => nan
  | ninf, num _ => ninf
  | ninf, inf => nan
  | ninf, ninf => ninf
  | ninf, nan => nan
  | nan, _ => nan

/-- IEEE-style negation. -/
def neg : JsVal → JsVal
  | num a => num (-a)
  | inf => ninf
  | ninf => inf
  | nan => nan

/-- IEEE-style subtraction (`a - b = a + (-b)`). -/
def sub (a b : JsVal) : JsVal := add a (neg b)

/-- IEEE-style multiplication; `Infinity * 0 = NaN`. -/
def mul : JsVal → JsVal → JsVal
  | num a, num b => num (a * b)
  | num a, inf => if a = 0 then nan else if 0 < a then inf else ninf
  | num a, ninf => if a = 0 then nan else if 0 < a then ninf else inf
  | num _, nan => nan
  | inf, num b => if b = 0 then nan else if 0 < b then inf else ninf
  | inf, inf => inf
  | inf, ninf => ninf
  | inf, nan => nan
  | ninf, num b => if b = 0 then nan else if 0 < b then ninf else inf
  | ninf, inf => ninf
  | ninf, ninf => inf
  | ninf, nan => nan
  | nan, _ => nan

/-- IEEE-style division; `x/0` is a signed infinity (or `NaN` for `0/0`).
Rationals have no negative zero, so a zero divisor always acts like `+0`. -/
def div : JsVal → JsVal → JsVal
  | num a, num b =>
      if b = 0 then (if a = 0 then nan else if 0 < a then inf else ninf)
      else num (a / b)
  | num _, inf => num 0
  | num _, ninf => num 0
  | num _, nan => nan
  | inf, num b => if 0 ≤ b then inf else ninf
  | inf, inf => nan
  | inf, ninf => nan
  | inf, nan => nan
  | ninf, num b => if 0 ≤ b then ninf else inf
  | ninf, inf => nan
  | ninf, ninf => nan
  | ninf, nan => nan
  | nan, _ => nan

/-- `Math.abs`. -/
def abs : JsVal → JsVal
  | num a => num |a|
  | inf => inf
  | ninf => inf
  | nan => nan

/-- JavaScript `<` (any comparison involving `NaN` is false). -/
def lt : JsVal → JsVal → Bool
  | num a, num b => a < b
  | num _, inf => true
  | num _, ninf => false
  | inf, inf => false
  | inf, num _ => false
  | inf, ninf => false
  | ninf, num _ => true
  | ninf, inf => true
  | ninf, ninf => false
  | nan, _ => false
  | _, nan => false

/-- JavaScript `>`. -/
def gt (a b : JsVal) : Bool := lt b a

/-- JavaScript `<=` (false on `NaN`, true on `Infinity <= Infinity`). -/
def le : JsVal → JsVal → Bool
  | num a, num b => a ≤ b
  | num _, inf => true
  | num _, ninf => false
  | inf, inf => true
  | inf, num _ => false
  | inf, ninf => false
  | ninf, num _ => true
  | ninf, inf => true
  | ninf, ninf => true
  | nan, _ => false
  | _, nan => false

/-- JavaScript `>=`. -/
def ge (a b : JsVal) : Bool := le b a

/-- JavaScript `isFinite`. -/
def finite : JsVal → Bool
  | num _ => true
  | _ => false

end JsVal

open JsVal (num)

/-- `Math.pow` with a finite base and an integer exponent, exact over ℚ;
`0 ^ negative` is `Infinity` (no negative zero among the rationals). -/
def jsPow (x : ℚ) (t : ℤ) : JsVal :=
  if 0 ≤ t then num (x ^ t.toNat)
  else if x = 0 then JsVal.inf
  else num (x ^ t)

/-- The fixed unary function set, in the key order of the source's `funs`
object: `sin, cos, tan, abs, id, sqrt, exp, log`. -/
inductive Fn where
  | sin | cos | tan | abs | id | sqrt | exp | log
deriving DecidableEq, Repr

/-- `funsKeys` (JavaScript object key order = insertion order). -/
def funsKeys : List Fn := [.sin, .cos, .tan, .abs, .id, .sqrt, .exp, .log]

/-- Interpretation of the transcendental library functions on finite inputs
(each is finite on every finite input in JS: `Math.tan` never overflows to
`Infinity`, `Math.exp` is only ever applied to arguments clamped to `≤ 300`,
`Math.log`/`Math.sqrt` only to positive/nonnegative ones). -/
structure FnInterp where
  sinQ : ℚ → ℚ
  cosQ : ℚ → ℚ
  tanQ : ℚ → ℚ
  sqrtQ : ℚ → ℚ
  expQ : ℚ → ℚ
  logQ : ℚ → ℚ

/-- A trivial interpretation used for concrete witnesses (whose models only
ever apply `id` and `abs`, where no interpretation is consulted). -/
def zeroInterp : FnInterp :=
  ⟨fun _ => 0, fun _ => 0, fun _ => 0, fun _ => 0, fun _ => 0, fun _ => 0⟩

/-- Application of a function of `funs`, with the clamping branches of the
source and the IEEE behaviour on non-finite arguments:
`sin/cos/tan` of a non-finite value is `NaN`; `sqrt`: `x<0 ? 0 : Math.sqrt(x)`
(so `-Infinity ↦ 0`, `Infinity ↦ Infinity`);
`exp`: `x>=300 ? Math.exp(300) : Math.exp(x)` (so `Infinity ↦ exp 300`,
`-Infinity ↦ 0`); `log`: `x<=0 ? 0 : Math.log(x)` (so `-Infinity ↦ 0`,
`Infinity ↦ Infinity`); `NaN` propagates everywhere. -/
def applyFn (I : FnInterp) : Fn → JsVal → JsVal
  | .sin, num q => num (I.sinQ q)
  | .sin, _ => .nan
  | .cos, num q => num (I.cosQ q)
  | .cos, _ => .nan
  | .tan, num q => num (I.tanQ q)
  | .tan, _ => .nan
  | .abs, v => v.abs
  | .id, v => v
  | .sqrt, num q => if q < 0 then num 0 else num (I.sqrtQ q)
  | .sqrt, .inf => .inf
  | .sqrt, .ninf => num 0
  | .sqrt, .nan => .nan
  | .exp, num q => if 300 ≤ q then num (I.expQ 300) else num (I.expQ q)
  | .exp, .inf => num (I.expQ 300)
  | .exp, .ninf => num 0
  | .exp, .nan => .nan
  | .log, num q => if q ≤ 0 then num 0 else num (I.logQ q)
  | .log, .inf => .inf
  | .log, .ninf => num 0
  | .log, .nan => .nan

/-- `reduce(prod, 1)` over JavaScript numbers. -/
def jsProd (l : List JsVal) : JsVal := l.foldl JsVal.mul (num 1)

/-- `reduce(sum, 0)` over JavaScript numbers. -/
def jsSum (l : List JsVal) : JsVal := l.foldl JsVal.add (num 0)

/-- `Math.floor` on an exact rational (kernel-computable form). -/
def qFloor (q : ℚ) : ℤ := q.num.fdiv q.den

/-- `Math.ceil` on an exact rational. -/
def qCeil (q : ℚ) : ℤ := -((-q.num).fdiv q.den)

/-- `x << 0`: truncation of a JS number toward zero (the int32 wrap-around is
irrelevant at the magnitudes this program produces and is not modelled). -/
def intTrunc (q : ℚ) : ℤ := if 0 ≤ q then qFloor q else -(qFloor (-q))

/-- `Math.round` for a finite value: `⌊x + 1/2⌋`. -/
def qRound (q : ℚ) : ℤ := qFloor (q + 1/2)

/-- `range(start, stop, step)`.  `Array(Math.ceil((stop-start)/step))` throws
a `RangeError` when the computed length is negative (or when `step = 0`, where
the length is non-finite): those cases are `none`.  When the arithmetic
progression is empty the source returns the one-element list `[start]`. -/
def range (start stop : ℤ) (step : ℤ) : Option (List ℤ) :=
  if step = 0 then none
  else
    let n : ℤ := qCeil ((stop - start : ℚ) / (step : ℚ))
    if n < 0 then none
    else
      let arr := (List.range n.toNat).map fun y => start + (y : ℤ) * step
      some (if arr.length = 0 then [start] else arr)

/-- The IT model: parallel sequences of exponent vectors, functions and
coefficients, with the cached `length` field of the source.  `score` is
`undefined` before the first fit; `undefined` behaves like `NaN` in every
comparison and `isFinite` check this program performs, so it is modelled as
`JsVal.nan`. -/
structure ITm where
  terms : List (List ℤ)
  funcs : List Fn
  coeffs : List JsVal
  length : ℕ
  score : JsVal := .nan
deriving DecidableEq, Repr

/-- The four parallel sequences agree with the cached `length`. -/
def WF (IT : ITm) : Prop :=
  IT.terms.length = IT.length ∧ IT.funcs.length = IT.length ∧
    IT.coeffs.length = IT.length

instance (IT : ITm) : Decidable (WF IT) := by unfold WF; infer_instance

/-- Every exponent vector has one entry per variable. -/
def WFvars (nvars : ℕ) (IT : ITm) : Prop :=
  ∀ t ∈ IT.terms, t.length = nvars

instance (nvars : ℕ) (IT : ITm) : Decidable (WFvars nvars IT) := by
  unfold WFvars; infer_instance

/-- A candidate term as produced by `SYMTREE` expansion (`coeff` is absent
unless explicitly supplied). -/
structure NewTerm where
  term : List ℤ
  func : Fn
  coeff : Option JsVal := none
deriving DecidableEq, Repr

/-- `copyIT`: a deep clone; on the value level, the identity. -/
def copyIT (IT : ITm) : ITm := IT

/-- `buildRootIT(nvars)`: one `id` term per variable, unit exponent vectors,
coefficients `1.0`. -/
def buildRootIT (nvars : ℕ) : ITm :=
  { terms := (List.range nvars).map fun termIdx =>
      (List.range nvars).map fun tIdx => if termIdx = tIdx then 1 else 0
    funcs := (List.range nvars).map fun _ => Fn.id
    coeffs := List.replicate nvars (num 1)
    length := nvars }

/-- `composeIT(IT, newTerm)`: appends the new term (coefficient `1.0` unless
the candidate carries one). -/
def composeIT (IT : ITm) (nt : NewTerm) : ITm :=
  { terms := IT.terms ++ [nt.term]
    funcs := IT.funcs ++ [nt.func]
    coeffs := IT.coeffs ++ [nt.coeff.getD (num 1)]
    length := IT.length + 1
    score := IT.score }

/-- One exponent draw:
`Math.random() * 2 * (expolim+1) - 1 - expolim << 0`. -/
def drawExponent (r : ℚ) (expolim : ℤ) : ℤ :=
  intTrunc (r * 2 * ((expolim : ℚ) + 1) - 1 - (expolim : ℚ))

/-- One function draw: `funs[funsKeys[funsKeys.length * Math.random() << 0]]`. -/
def drawFn (r : ℚ) : Fn :=
  funsKeys.getD (intTrunc ((funsKeys.length : ℚ) * r)).toNat Fn.id

/-- `createTerm` of `buildRandIT`: draw `nvars` exponents, redrawing the whole
vector while it is all-zero.  The redraw loop would run forever on a stream
that keeps producing all-zero vectors, hence the fuel. -/
def createTerm (g : ℕ → ℚ) (nvars : ℕ) (expolim : ℤ) :
    ℕ → ℕ → Option (List ℤ × ℕ)
  | 0, _ => none
  | fuel + 1, σ =>
    let term := (List.range nvars).map fun j => drawExponent (g (σ + j)) expolim
    if term.all (· == 0) then createTerm g nvars expolim fuel (σ + nvars)
    else some (term, σ + nvars)

/-- The `terms` array of `buildRandIT`: `nTerms` sequential `createTerm`s. -/
def buildTerms (g : ℕ → ℚ) (nvars : ℕ) (expolim : ℤ) (fuel : ℕ) :
    ℕ → ℕ → Option (List (List ℤ) × ℕ)
  | 0, σ => some ([], σ)
  | k + 1, σ => do
    let (t, σ2) ← createTerm g nvars expolim fuel σ
    let (ts, σ3) ← buildTerms g nvars expolim fuel k σ2
    return (t :: ts, σ3)

/-- The `funcs` array of `buildRandIT`: `nTerms` sequential function draws. -/
def buildFuncs (g : ℕ → ℚ) : ℕ → ℕ → List Fn × ℕ
  | 0, σ => ([], σ)
  | k + 1, σ =>
    let f := drawFn (g σ)
    let p := buildFuncs g k (σ + 1)
    (f :: p.1, p.2)

/-- `buildRandIT(nTerms, nvars, expolim)`.  The object literal evaluates
`terms` before `funcs`, so all exponent draws precede all function draws. -/
def buildRandIT (g : ℕ → ℚ) (nTerms nvars : ℕ) (expolim : ℤ) (fuel σ : ℕ) :
    Option (ITm × ℕ) := do
  let (ts, σ2) ← buildTerms g nvars expolim fuel nTerms σ
  let (fs, σ3) := buildFuncs g nTerms σ2
  return ({ terms := ts, funcs := fs, coeffs := List.replicate nTerms (num 1)
            length := nTerms }, σ3)

/-- `zip(term, other).every(([t1, t2]) => t1 == t2)`: elementwise equality on
the common prefix (the source's `zip` truncates to the shorter argument). -/
def zipEqInt (a b : List ℤ) : Bool := (a.zip b).all fun p => p.1 == p.2

/-- The `toRemove` list of `sanitizeIT`, in push order: for each index, the
all-zero check, else one push of `tIndex` per later index `i < IT.length`
carrying an equal `(exponent vector, function)` pair.  Note that the source
pushes the EARLIER index of a duplicate pair, and pushes it once per match. -/
def toRemoveList (IT : ITm) : List ℕ :=
  (List.range IT.terms.length).flatMap fun tIndex =>
    let term := IT.terms.getD tIndex []
    if term.all (· == 0) then [tIndex]
    else ((List.range' (tIndex + 1) (IT.length - (tIndex + 1))).filter fun i =>
        zipEqInt term (IT.terms.getD i []) &&
          (IT.funcs.getD tIndex Fn.id == IT.funcs.getD i Fn.id)).map fun _ => tIndex

/-- `toRemove.reverse().forEach(index => arr.splice(index, 1))` on one array. -/
def eraseFold (l : List α) (ds : List ℕ) : List α :=
  ds.foldl (fun acc i => acc.eraseIdx i) l

/-- `sanitizeIT`: build `toRemove`, splice it out of the three parallel arrays
in reverse order, refresh `length`; if everything was removed, return the
backup taken on entry (the unmodified input value). -/
def sanitizeIT (IT : ITm) : ITm :=
  let rem := (toRemoveList IT).reverse
  let terms2 := eraseFold IT.terms rem
  let funcs2 := eraseFold IT.funcs rem
  let coeffs2 := eraseFold IT.coeffs rem
  if terms2.length = 0 then IT
  else { terms := terms2, funcs := funcs2, coeffs := coeffs2
         length := terms2.length, score := IT.score }

/-- Whether `sanitizeIT` hit its empty case (in which case the CALLER's object
has been emptied in place and the returned value is the backup). -/
def sanitizeEmptied (IT : ITm) : Bool :=
  (eraseFold IT.terms (toRemoveList IT).reverse).length == 0

/-- The in-place-emptied caller object left behind when `sanitizeIT` returns
its backup: all arrays spliced empty, `length` refreshed to `0`, the `score`
property untouched. -/
def huskIT (IT : ITm) : ITm :=
  { terms := [], funcs := [], coeffs := [], length := 0, score := IT.score }

/-- `evalIT(IT, X)`: `Σ_i coeffs[i] * funcs[i](Π_v X[v] ^ terms[i][v])`, with
the source's truncating `zip`s and left-fold `reduce`s. -/
def evalIT (I : FnInterp) (IT : ITm) (X : List ℚ) : JsVal :=
  jsSum ((IT.coeffs.zip (IT.funcs.zip IT.terms)).map fun cft =>
    JsVal.mul cft.1 (applyFn I cft.2.1
      (jsProd ((X.zip cft.2.2).map fun xt => jsPow xt.1 xt.2))))

/-- Dot product of two rows. -/
def dotJs (r c : List JsVal) : JsVal :=
  jsSum ((r.zip c).map fun p => JsVal.mul p.1 p.2)

/-- `math.transpose` (rectangular input assumed, as mathjs requires). -/
def transposeL (m : List (List JsVal)) : List (List JsVal) :=
  (List.range (m.headD []).length).map fun j => m.map fun row => row.getD j (num 0)

/-- `math.multiply` on matrices. -/
def matMul (a b : List (List JsVal)) : List (List JsVal) :=
  let bt := transposeL b
  a.map fun r => bt.map fun c => dotJs r c

/-- Pivot search of Gauss-Jordan: the first remaining row whose entry in
column `c` is not (strictly) equal to `0` (NaN and Infinity pass, as in JS). -/
def pivotSearch (c : ℕ) : List (List JsVal) → Option (List JsVal × List (List JsVal))
  | [] => none
  | r :: rs =>
    if r.getD c (num 0) == num 0 then
      (pivotSearch c rs).map fun pr => (pr.1, r :: pr.2)
    else some (r, rs)

/-- Subtract `row[c] *` the (normalised) pivot row from `row`. -/
def elimRow (piv : List JsVal) (c : ℕ) (row : List JsVal) : List JsVal :=
  let factor := row.getD c (num 0)
  (row.zip piv).map fun p => JsVal.sub p.1 (JsVal.mul factor p.2)

/-- Gauss-Jordan elimination on the augmented matrix, one pivot per column;
`none` when no usable pivot exists (mathjs `inv` throws
"determinant is zero").  The fuel is the number of pending rows. -/
def gjGo : ℕ → List (List JsVal) → ℕ → List (List JsVal) →
    Option (List (List JsVal))
  | _, [], _, done => some done
  | 0, _ :: _, _, _ => none
  | fuel + 1, pending, c, done =>
    match pivotSearch c pending with
    | none => none
    | some (p, rest) =>
      let pr := p.map fun a => JsVal.div a (p.getD c (num 0))
      gjGo fuel (rest.map (elimRow pr c)) (c + 1) ((done.map (elimRow pr c)) ++ [pr])

/-- Row `i` of the `n × n` identity. -/
def idRow (n i : ℕ) : List JsVal :=
  (List.range n).map fun j => if j = i then num 1 else num 0

/-- `math.inv`, modelled as Gauss-Jordan with exact arithmetic: `none` exactly
when elimination finds no usable pivot (the singular case the source catches). -/
def matInv (m : List (List JsVal)) : Option (List (List JsVal)) :=
  let n := m.length
  let aug := m.enum.map fun ir => ir.2 ++ idRow n ir.1
  (gjGo n aug 0 []).map fun rows => rows.map (·.drop n)

/-- The design matrix `XsHat`: per sample, per term, `func(Π X^exponents)`. -/
def designMatrix (I : FnInterp) (IT : ITm) (Xs : List (List ℚ)) :
    List (List JsVal) :=
  Xs.map fun X =>
    (IT.funcs.zip IT.terms).map fun ft =>
      applyFn I ft.1 (jsProd ((X.zip ft.2).map fun xt => jsPow xt.1 xt.2))

/-- The `try` block of `fitIT`: `ws = (XsHatᵀ XsHat)⁻¹ (XsHatᵀ ysHat)`,
`none` when the inversion fails (the caught exception). -/
def normalSolve (XsHat ysHat : List (List JsVal)) : Option (List JsVal) :=
  let XsHatT := transposeL XsHat
  (matInv (matMul XsHatT XsHat)).map fun q1 =>
    (matMul q1 (matMul XsHatT ysHat)).map fun w => w.getD 0 (num 0)

/-- The mean absolute error over the dataset (division by `Xs.length`). -/
def maeOf (I : FnInterp) (IT : ITm) (Xs : List (List ℚ)) (ys : List ℚ) : JsVal :=
  JsVal.div
    (jsSum ((Xs.zip ys).map fun Xy =>
      JsVal.abs (JsVal.sub (evalIT I IT Xy.1) (num Xy.2))))
    (num (Xs.length : ℚ))

/-- `score = 1/(1 + MAE)`, demoted to `0` when non-finite. -/
def scoreOf (I : FnInterp) (IT : ITm) (Xs : List (List ℚ)) (ys : List ℚ) : JsVal :=
  let score := JsVal.div (num 1) (JsVal.add (num 1) (maeOf I IT Xs ys))
  if score.finite then score else num 0

/-- `fitIT(IT, Xs, ys)`: solve the normal equations for the coefficients
(keeping the prior ones when the Gram matrix cannot be inverted), then attach
the MAE-based score. -/
def fitIT (I : FnInterp) (IT : ITm) (Xs : List (List ℚ)) (ys : List ℚ) : ITm :=
  let XsHat := designMatrix I IT Xs
  let ysHat := ys.map fun y => [num y]
  let IT1 :=
    match normalSolve XsHat ysHat with
    | some ws => { IT with coeffs := ws }
    | none => IT
  { IT1 with score := scoreOf I IT1 Xs ys }

/-- `array.filter((_, index) => keep index)`. -/
def filterIdx (l : List α) (keep : ℕ → Bool) : List α :=
  (l.enum.filter fun p => keep p.1).map fun p => p.2

/-- `simplifyIT(IT, Xs, ys, nvars, threshold)`: drop the terms whose
`|coefficient|` is not `> threshold`, and recurse on the refitted rest; keep
the input when the pruned model would be empty or nothing was pruned.  The
recursion decreases `length` on well-formed input; the fuel only cuts off the
(non-terminating) ill-formed case. -/
def simplifyIT (I : FnInterp) :
    ℕ → ITm → List (List ℚ) → List ℚ → ℕ → ℚ → ITm
  | 0, IT, _, _, _, _ => IT
  | fuel + 1, IT, Xs, ys, nvars, threshold =>
    let keep : ℕ → Bool := fun index =>
      JsVal.gt (JsVal.abs (IT.coeffs.getD index .nan)) (num threshold)
    let newIT : ITm :=
      { terms := filterIdx IT.terms keep
        funcs := filterIdx IT.funcs keep
        coeffs := filterIdx IT.coeffs keep
        length := (filterIdx IT.coeffs keep).length }
    if newIT.length = 0 then IT
    else if newIT.length = IT.length then IT
    else simplifyIT I fuel (fitIT I newIT Xs ys) Xs ys nvars threshold

/-- `mutateopIT`: replace a uniformly chosen term's function by a uniformly
chosen library function (LHS index draw precedes RHS function draw). -/
def mutateopIT (g : ℕ → ℚ) (σ : ℕ) (IT : ITm) : ITm × ℕ :=
  let idx := (intTrunc ((IT.length : ℚ) * g σ)).toNat
  let f := drawFn (g (σ + 1))
  ({ IT with funcs := IT.funcs.set idx f }, σ + 2)

/-- The single-exponent overwrite of `mutatetermsIT`:
`IT.terms[IT.length * rand << 0][nvars * rand << 0] = freshly drawn value`
(term draw, variable draw, value draw, in JS evaluation order). -/
def mutatePerturb (g : ℕ → ℚ) (σ : ℕ) (IT : ITm) (nvars : ℕ)
    (expolim : ℤ) : ITm :=
  let tIdx := (intTrunc ((IT.length : ℚ) * g σ)).toNat
  let vIdx := (intTrunc ((nvars : ℚ) * g (σ + 1))).toNat
  let v := drawExponent (g (σ + 2)) expolim
  { IT with terms := IT.terms.set tIdx ((IT.terms.getD tIdx []).set vIdx v) }

/-- `mutatetermsIT`: overwrite one exponent; if any exponent vector of the
result is all-zero, discard the whole model for a fresh `buildRandIT` of the
same `length`. -/
def mutatetermsIT (g : ℕ → ℚ) (fuel σ : ℕ) (IT : ITm) (nvars : ℕ)
    (expolim : ℤ) : Option (ITm × ℕ) :=
  let IT2 := mutatePerturb g σ IT nvars expolim
  if IT2.terms.any fun term => term.all (· == 0) then
    buildRandIT g IT.length nvars expolim fuel (σ + 3)
  else some (IT2, σ + 3)

/-- The `bestScore` reducer. -/
def bestScore (b c : ITm) : ITm := if JsVal.gt c.score b.score then c else b

/-- `pop.reduce(bestScore)`; JS throws on an empty array. -/
def reduceBest : List ITm → Option ITm
  | [] => none
  | h :: t => some (t.foldl bestScore h)

/-- A placeholder for JS `undefined` array reads; every use in the theorems
below is guarded so it is never observed. -/
def dummyIT : ITm := { terms := [], funcs := [], coeffs := [], length := 0 }

/-- Build `count` individuals of size `expSize`, each
`fitIT(sanitizeIT(buildRandIT(expSize, nvars, expolim)), Xs, ys)`. -/
def buildPopAt (I : FnInterp) (g : ℕ → ℚ) (fuel : ℕ) (Xs : List (List ℚ))
    (ys : List ℚ) (nvars : ℕ) (expolim : ℤ) (expSize : ℕ) :
    ℕ → ℕ → Option (List ITm × ℕ)
  | 0, σ => some ([], σ)
  | k + 1, σ => do
    let (m, σ2) ← buildRandIT g expSize nvars expolim fuel σ
    let (rest, σ3) ← buildPopAt I g fuel Xs ys nvars expolim expSize k σ2
    return (fitIT I (sanitizeIT m) Xs ys :: rest, σ3)

/-- The initial population shared by `ITES` and `ITLS`: for each size of
`range(minSize, maxSize+1)`, `Math.round(popSize/(maxSize-minSize+1))`
random individuals (a negative `Array.from` length yields zero; a zero bin
count makes the length non-finite, which never terminates: `none`). -/
def initPop (I : FnInterp) (g : ℕ → ℚ) (fuel : ℕ) (Xs : List (List ℚ))
    (ys : List ℚ) (nvars : ℕ) (expolim : ℤ) (countN : ℕ) :
    List ℤ → ℕ → Option (List ITm × ℕ)
  | [], σ => some ([], σ)
  | expSize :: rest, σ => do
    let (batch, σ2) ← buildPopAt I g fuel Xs ys nvars expolim expSize.toNat countN σ
    let (tail, σ3) ← initPop I g fuel Xs ys nvars expolim countN rest σ2
    return (batch ++ tail, σ3)

/-- Initialisation common to `ITES`/`ITLS`: population plus its best. -/
def searchInit (I : FnInterp) (g : ℕ → ℚ) (fuel : ℕ) (Xs : List (List ℚ))
    (ys : List ℚ) (popSize : ℕ) (minSize maxSize expolim : ℤ) :
    Option (List ITm × ITm × ℕ) := do
  let nvars := (Xs.headD []).length
  let sizes ← range minSize (maxSize + 1) 1
  let bins := maxSize - minSize + 1
  if bins = 0 then none
  else do
    let countN := (qRound ((popSize : ℚ) / (bins : ℚ))).toNat
    let (pop, σ) ← initPop I g fuel Xs ys nvars expolim countN sizes 0
    let best ← reduceBest pop
    return (pop, best, σ)

/-- `count` tournament-of-2 draws with replacement from `pop` (the source
reads `pop[pop.length * Math.random() << 0]` twice, keeps the higher score,
and deep-copies the winner). -/
def tournament (g : ℕ → ℚ) (pop : List ITm) : ℕ → ℕ → List ITm × ℕ
  | 0, σ => ([], σ)
  | k + 1, σ =>
    let e1 := pop.getD (intTrunc ((pop.length : ℚ) * g σ)).toNat dummyIT
    let e2 := pop.getD (intTrunc ((pop.length : ℚ) * g (σ + 1))).toNat dummyIT
    let w := copyIT (if JsVal.gt e1.score e2.score then e1 else e2)
    let p := tournament g pop k (σ + 2)
    (w :: p.1, p.2)

/-- The mutation pass of `ITES`: each parent is hit by `mutateopIT` or
`mutatetermsIT` (one coin draw decides), then sanitized and refitted. -/
def mutateParents (I : FnInterp) (g : ℕ → ℚ) (fuel : ℕ) (Xs : List (List ℚ))
    (ys : List ℚ) (nvars : ℕ) (expolim : ℤ) :
    List ITm → ℕ → Option (List ITm × ℕ)
  | [], σ => some ([], σ)
  | p :: rest, σ => do
    let (m, σ2) ←
      if (1/2 : ℚ) < g σ then some (mutateopIT g (σ + 1) p)
      else mutatetermsIT g fuel (σ + 1) p nvars expolim
    let (tail, σ3) ← mutateParents I g fuel Xs ys nvars expolim rest σ2
    return (fitIT I (sanitizeIT m) Xs ys :: tail, σ3)

/-- One `ITES` generation: selection, mutation, offspring, and the recompute
of `best` from the new population (note: from the new population only — the
previous best is forgotten).  Returns the stop flag
`best.score >= stopScore`. -/
def itesGen (I : FnInterp) (g : ℕ → ℚ) (fuel : ℕ) (Xs : List (List ℚ))
    (ys : List ℚ) (popSize selectedSize nvars : ℕ) (expolim : ℤ)
    (stopScore : ℚ) (st : List ITm × ITm × ℕ) :
    Option (List ITm × ITm × ℕ × Bool) := do
  let (pop, _, σ) := st
  if pop.isEmpty then none
  else do
    let (parents0, σ2) := tournament g pop selectedSize σ
    let (parents, σ3) ← mutateParents I g fuel Xs ys nvars expolim parents0 σ2
    if parents.isEmpty ∧ popSize ≠ 0 then none
    else do
      let (pop2, σ4) := tournament g parents popSize σ3
      let best2 ← reduceBest pop2
      return (pop2, best2, σ4, JsVal.ge best2.score (num stopScore))

/-- The generation loop of `ITES` (`range(0, generations).some(...)`). -/
def itesLoop (I : FnInterp) (g : ℕ → ℚ) (fuel : ℕ) (Xs : List (List ℚ))
    (ys : List ℚ) (popSize selectedSize nvars : ℕ) (expolim : ℤ)
    (stopScore : ℚ) : List ℤ → List ITm × ITm × ℕ → Option ITm
  | [], st => some st.2.1
  | _ :: rest, st => do
    let (pop2, best2, σ2, stop) ←
      itesGen I g fuel Xs ys popSize selectedSize nvars expolim stopScore st
    if stop then some best2
    else
      itesLoop I g fuel Xs ys popSize selectedSize nvars expolim stopScore rest
        (pop2, best2, σ2)

/-- `ITES(Xs, ys, popSize, selectedSize, minSize, maxSize, expolim,
generations, stopScore)`. -/
def ITES (I : FnInterp) (g : ℕ → ℚ) (fuel : ℕ) (Xs : List (List ℚ))
    (ys : List ℚ) (popSize selectedSize : ℕ) (minSize maxSize expolim : ℤ)
    (generations : ℤ) (stopScore : ℚ) : Option ITm := do
  let nvars := (Xs.headD []).length
  let (pop, best, σ) ← searchInit I g fuel Xs ys popSize minSize maxSize expolim
  let gens ← range 0 generations 1
  let bestF ← itesLoop I g fuel Xs ys popSize selectedSize nvars expolim
    stopScore gens (pop, best, σ)
  return simplifyIT I (bestF.coeffs.length + 1) bestF Xs ys nvars (1/200)

/-- The full (deterministic) neighbourhood of `ITLS`: per term, per library
function, per variable, per exponent increment in `{-1, 0, +1}`, excluding
any neighbour whose perturbed term becomes all-zero; `flat(4)`. -/
def itlsNeighbors (best : ITm) (nvars : ℕ) : List ITm :=
  (List.range best.length).flatMap fun termIdx =>
    (List.range funsKeys.length).flatMap fun opIdx =>
      (List.range nvars).flatMap fun tIdx =>
        ([-1, 0, 1] : List ℤ).filterMap fun tIncrement =>
          let neighbor := copyIT best
          let t2 := (neighbor.terms.getD termIdx []).set tIdx
            ((neighbor.terms.getD termIdx []).getD tIdx 0 + tIncrement)
          let n2 : ITm :=
            { neighbor with terms := neighbor.terms.set termIdx t2
                            funcs := neighbor.funcs.set termIdx (funsKeys.getD opIdx Fn.id) }
          if t2.all (· == 0) then none else some n2

/-- The neighbour scan of `ITLS` (`neighbors.some(...)`): sanitize and fit
each neighbour in turn; on strict improvement adopt the JS `neigh` object —
the fitted model in the ordinary case, the emptied husk when `sanitizeIT`
reverted to its backup — and stop early at `stopScore`. -/
def itlsScan (I : FnInterp) (Xs : List (List ℚ)) (ys : List ℚ)
    (stopScore : ℚ) : List ITm → ITm → ITm × Bool
  | [], best => (best, false)
  | neigh :: rest, best =>
    let fitted := fitIT I (sanitizeIT neigh) Xs ys
    let neighAfter := if sanitizeEmptied neigh then huskIT neigh else fitted
    let best2 := if JsVal.gt fitted.score best.score then neighAfter else best
    if JsVal.ge best2.score (num stopScore) then (best2, true)
    else itlsScan I Xs ys stopScore rest best2

/-- One `ITLS` iteration: build the neighbourhood of the current best, then
scan it. -/
def itlsIter (I : FnInterp) (Xs : List (List ℚ)) (ys : List ℚ) (nvars : ℕ)
    (stopScore : ℚ) (best : ITm) : ITm × Bool :=
  itlsScan I Xs ys stopScore (itlsNeighbors best nvars) best

/-- The iteration loop of `ITLS`. -/
def itlsLoop (I : FnInterp) (Xs : List (List ℚ)) (ys : List ℚ) (nvars : ℕ)
    (stopScore : ℚ) : List ℤ → ITm → ITm
  | [], best => best
  | _ :: rest, best =>
    let p := itlsIter I Xs ys nvars stopScore best
    if p.2 then p.1 else itlsLoop I Xs ys nvars stopScore rest p.1

/-- `ITLS(Xs, ys, popSize, minSize, maxSize, expolim, iterations,
stopScore)`. -/
def ITLS (I : FnInterp) (g : ℕ → ℚ) (fuel : ℕ) (Xs : List (List ℚ))
    (ys : List ℚ) (popSize : ℕ) (minSize maxSize expolim : ℤ)
    (iterations : ℤ) (stopScore : ℚ) : Option ITm := do
  let nvars := (Xs.headD []).length
  let (_, best, _) ← searchInit I g fuel Xs ys popSize minSize maxSize expolim
  let iters ← range 0 iterations 1
  let bestF := itlsLoop I Xs ys nvars stopScore iters best
  return simplifyIT I (bestF.coeffs.length + 1) bestF Xs ys nvars (1/200)

/-- The candidate terms a `SYMTREE` leaf generates at iteration `i`: for every
`j <= k < leaf.length` the elementwise sum of exponent vectors `j` and `k`
with function `id`; from iteration `minI` on also the elementwise difference;
from iteration `minT` on, for every term, every library function other than
the term's own, with the exponent vector unchanged. -/
def symtreeExpand (i minI minT : ℤ) (leaf : ITm) : List NewTerm :=
  (List.range leaf.length).flatMap fun j =>
    ((List.range' j (leaf.length - j)).flatMap fun k =>
      ({ term := ((leaf.terms.getD j []).zip (leaf.terms.getD k [])).map
            fun p => p.1 + p.2
         func := Fn.id } : NewTerm) ::
      (if minI ≤ i then
        [{ term := ((leaf.terms.getD j []).zip (leaf.terms.getD k [])).map
              fun p => p.1 - p.2
           func := Fn.id }]
      else []))
    ++ (if minT ≤ i then
          (funsKeys.filter fun f => f ≠ leaf.funcs.getD j Fn.id).map
            fun f => { term := leaf.terms.getD j [], func := f }
        else [])

/-- The candidate filter of `SYMTREE`: keep a candidate exactly when composing
it onto a copy of the leaf, sanitizing and fitting strictly improves the
leaf's score. -/
def symtreeImproves (I : FnInterp) (Xs : List (List ℚ)) (ys : List ℚ)
    (leaf : ITm) (cand : NewTerm) : Bool :=
  JsVal.gt (fitIT I (sanitizeIT (composeIT (copyIT leaf) cand)) Xs ys).score
    leaf.score

/-- One pass of the greedy absorption filter: candidates improving the running
best are absorbed (and dropped); the rest are kept for the next round. -/
def symtreeRound (I : FnInterp) (Xs : List (List ℚ)) (ys : List ℚ) :
    ITm → List NewTerm → ITm × List NewTerm
  | gb, [] => (gb, [])
  | gb, t :: rest =>
    let attempt := fitIT I (sanitizeIT (composeIT (copyIT gb) t)) Xs ys
    if JsVal.gt attempt.score gb.score then
      let p := symtreeRound I Xs ys (copyIT attempt) rest
      (p.1, p.2)
    else
      let p := symtreeRound I Xs ys gb rest
      (p.1, t :: p.2)

/-- The `while (toExpand.length > 0)` loop: each round restarts the running
best from the leaf, absorbs improving candidates, simplifies the round's
result and records it as a child.  A round that absorbs nothing would loop
forever in the source; the fuel cuts that (unreachable) case off. -/
def symtreeGreedy (I : FnInterp) (Xs : List (List ℚ)) (ys : List ℚ)
    (nvars : ℕ) (threshold : ℚ) :
    ℕ → ITm → List NewTerm → List ITm → Option (List ITm)
  | _, _, [], children => some children
  | 0, _, _ :: _, _ => none
  | fuel + 1, leaf, toExpand, children =>
    let p := symtreeRound I Xs ys leaf toExpand
    let gb2 := simplifyIT I (p.1.coeffs.length + 1) p.1 Xs ys nvars threshold
    symtreeGreedy I Xs ys nvars threshold fuel leaf p.2 (children ++ [gb2])

/-- Expansion of one leaf: generate, filter, greedily absorb; a leaf that
produced no children keeps itself. -/
def symtreeExpandLeaf (I : FnInterp) (Xs : List (List ℚ)) (ys : List ℚ)
    (nvars : ℕ) (threshold : ℚ) (minI minT i : ℤ) (leaf : ITm) :
    Option (List ITm) := do
  let toExpand := (symtreeExpand i minI minT leaf).filter
    (symtreeImproves I Xs ys leaf)
  let children ← symtreeGreedy I Xs ys nvars threshold (toExpand.length + 1)
    leaf toExpand []
  return if children.length > 0 then children else [leaf]

/-- One `SYMTREE` iteration: expand every leaf, flatten, and check the stop
score on the best of the new leaves. -/
def symtreeIter (I : FnInterp) (Xs : List (List ℚ)) (ys : List ℚ)
    (nvars : ℕ) (threshold : ℚ) (minI minT : ℤ) (stopScore : ℚ) (i : ℤ)
    (leaves : List ITm) : Option (List ITm × Bool) := do
  let nodes ← leaves.mapM (symtreeExpandLeaf I Xs ys nvars threshold minI minT i)
  let leaves2 := nodes.flatten
  let bl ← reduceBest leaves2
  return (leaves2, JsVal.ge bl.score (num stopScore))

/-- The iteration loop of `SYMTREE`. -/
def symtreeLoop (I : FnInterp) (Xs : List (List ℚ)) (ys : List ℚ)
    (nvars : ℕ) (threshold : ℚ) (minI minT : ℤ) (stopScore : ℚ) :
    List ℤ → List ITm → Option (List ITm)
  | [], leaves => some leaves
  | i :: rest, leaves => do
    let (leaves2, stop) ←
      symtreeIter I Xs ys nvars threshold minI minT stopScore i leaves
    if stop then some leaves2
    else symtreeLoop I Xs ys nvars threshold minI minT stopScore rest leaves2

/-- `SYMTREE(Xs, ys, iterations, threshold, minI, minT, stopScore)`. -/
def SYMTREE (I : FnInterp) (Xs : List (List ℚ)) (ys : List ℚ)
    (iterations : ℤ) (threshold : ℚ) (minI minT : ℤ) (stopScore : ℚ) :
    Option ITm := do
  let nvars := (Xs.headD []).length
  let best := fitIT I (buildRootIT nvars) Xs ys
  let iters ← range 0 iterations 1
  let leavesF ← symtreeLoop I Xs ys nvars threshold minI minT stopScore
    iters [best]
  let bl ← reduceBest leavesF
  return simplifyIT I (bl.coeffs.length + 1) bl Xs ys nvars (1/200)

/-! ### Specification-side definitions

These definitions restate, in the spec's own vocabulary, what the claims say
the code computes; the theorems below compare them with the source-derived
definitions above. -/

/-- The claim's reading of `evaluate`: an indexed sum over all terms of
`coeffs[i] * funcs[i](Π_v X[v] ^ terms[i][v])`, the product running over all
variables. -/
def evalSpecSum (I : FnInterp) (IT : ITm) (X : List ℚ) : JsVal :=
  ((List.range IT.terms.length).map fun i =>
    JsVal.mul (IT.coeffs.getD i .nan) (applyFn I (IT.funcs.getD i Fn.id)
      (jsProd ((List.range X.length).map fun v =>
        jsPow (X.getD v 0) ((IT.terms.getD i []).getD v 0))))).foldl
    JsVal.add (num 0)

/-- The original indices of the terms that survive `sanitizeIT`'s splice
pass: the erase fold applied to the position list itself. -/
def keptIdx (IT : ITm) : List ℕ :=
  eraseFold (List.range IT.terms.length) (toRemoveList IT).reverse

/-- Index `t` has an all-zero exponent vector. -/
def zeroTermAt (IT : ITm) (t : ℕ) : Prop :=
  (IT.terms.getD t []).all (· == 0) = true

instance (IT : ITm) (t : ℕ) : Decidable (zeroTermAt IT t) := by
  unfold zeroTermAt; infer_instance

/-- Indices `t < i` carry the same `(exponent vector, function)` pair in the
sense the source tests it (prefix equality of vectors, equal functions),
with `i` below the cached `length`. -/
def dupMatch (IT : ITm) (t i : ℕ) : Prop :=
  t < i ∧ i < IT.length ∧
    zipEqInt (IT.terms.getD t []) (IT.terms.getD i []) = true ∧
    IT.funcs.getD t Fn.id = IT.funcs.getD i Fn.id

instance (IT : ITm) (t i : ℕ) : Decidable (dupMatch IT t i) := by
  unfold dupMatch; infer_instance

/-- The claim's "interaction" candidate: elementwise sum of exponent vectors
`j` and `k`, function `id`. -/
def sumCand (leaf : ITm) (j k : ℕ) : NewTerm :=
  { term := List.zipWith (· + ·) (leaf.terms.getD j []) (leaf.terms.getD k [])
    func := Fn.id }

/-- The claim's subtraction candidate. -/
def diffCand (leaf : ITm) (j k : ℕ) : NewTerm :=
  { term := List.zipWith (· - ·) (leaf.terms.getD j []) (leaf.terms.getD k [])
    func := Fn.id }

/-- The claim's function-swap candidate. -/
def swapCand (leaf : ITm) (j : ℕ) (f : Fn) : NewTerm :=
  { term := leaf.terms.getD j [], func := f }

/-- The invariant carried by the tracked best of `ITLS`: well-formed, at
least one term, no all-zero exponent vector, no duplicated
`(exponent vector, function)` pair, and a numeric (fit-assigned) score. -/
def GoodBest (nvars : ℕ) (IT : ITm) : Prop :=
  WF IT ∧ WFvars nvars IT ∧ 1 ≤ IT.length ∧
    (∀ term ∈ IT.terms, ¬ term.all (· == 0) = true) ∧
    (IT.terms.zip IT.funcs).Nodup ∧ IT.score.finite = true

instance (nvars : ℕ) (IT : ITm) : Decidable (GoodBest nvars IT) := by
  unfold GoodBest; infer_instance

/-- A scanned `ITLS` neighbour that cannot reach `sanitizeIT`'s empty-revert
path. -/
def NeighborOK (nvars : ℕ) (n : ITm) : Prop :=
  WF n ∧ WFvars nvars n ∧ sanitizeEmptied n = false

/-- The pre-decided random draws of the concrete `ITES` regression run. -/
def cexDraws : List ℚ := [3/4, 9/16, 0, 0, 1/4, 0, 0, 1/4, 0, 0]

/-- The random stream of the concrete `ITES` regression run. -/
def cexG : ℕ → ℚ := fun n => cexDraws.getD n 0

/-- The dataset of the concrete `ITES` regression run (`y = x`). -/
def cexXs : List (List ℚ) := [[1], [2]]

/-- Targets of the concrete `ITES` regression run. -/
def cexYs : List ℚ := [1, 2]

/-- Duplicate-pair model for the `sanitize` keeps-which-occurrence question:
two identical `(vector, function)` pairs whose coefficients tell them
apart. -/
def dupPairIT : ITm :=
  { terms := [[1], [1]], funcs := [.id, .id]
    coeffs := [num 5, num 7], length := 2 }

/-- Triple-duplicate model: three identical `(vector, function)` pairs. -/
def tripleIT : ITm :=
  { terms := [[1], [1], [1]], funcs := [.id, .id, .id]
    coeffs := [num 1, num 1, num 1], length := 3 }

/-- A one-term, one-variable linear model used by several witnesses. -/
def oneTermIT : ITm :=
  { terms := [[1]], funcs := [.id], coeffs := [num 1], length := 1 }

/-! ### Theorems -/

unseal Rat.add Rat.mul Rat.inv Rat.sub in
/-- C10 (counterexample): `range(0, -1)` does not return `[0]` for the empty
arithmetic progression — `Array(Math.ceil(-1))` throws a `RangeError`
(modelled as `none`). -/
theorem range_negative_budget_throws : range 0 (-1) 1 = none := by decide

/-- C10 (amended): `range(start, stop)` with the default step returns the
one-element list `[start]` when `stop = start` (so a zero generation or
iteration budget still executes one loop pass over `[0]`), but for
`stop < start` the negative computed array length makes `Array(...)` throw a
`RangeError` instead of producing `[start]`. -/
theorem range_empty_progression (start stop : ℤ) :
    (stop = start → range start stop 1 = some [start]) ∧
    (stop < start → range start stop 1 = none) := by
  have h1 : ((stop : ℚ) - (start : ℚ)) / ((1 : ℤ) : ℚ) = ((stop - start : ℤ) : ℚ) := by
    push_cast
    rw [div_one]
  have h2 : ∀ k : ℤ, qCeil ((k : ℤ) : ℚ) = k := by
    intro k
    unfold qCeil
    rw [Rat.num_intCast, Rat.den_intCast]
    simp [Int.fdiv_one]
  constructor
  · intro h
    subst h
    unfold range
    rw [if_neg one_ne_zero, h1, sub_self, h2 0]
    norm_num
  · intro h
    unfold range
    rw [if_neg one_ne_zero, h1, h2]
    rw [if_pos (by omega)]

/-- Witness for `range_empty_progression` at `start = 5`. -/
theorem range_empty_progression_witness :
    range 5 5 1 = some [5] ∧ range 5 4 1 = none :=
  ⟨(range_empty_progression 5 5).1 rfl,
   (range_empty_progression 5 4).2 (by decide)⟩

unseal Rat.add Rat.mul Rat.inv Rat.sub in
/-- C1 (counterexample): a concrete `evolutionarySearch` run (one variable,
population size 1, dataset `y = x`, a fixed random stream) in which the
tracked best score is `1` after initialisation and `10/19` after the first
generation: the tracked best is recomputed from the new population and
regresses. -/
theorem ites_best_regresses :
    (searchInit zeroInterp cexG 10 cexXs cexYs 1 1 1 1).map
        (fun st => st.2.1.score) = some (num 1) ∧
    ((searchInit zeroInterp cexG 10 cexXs cexYs 1 1 1 1).bind
        (itesGen zeroInterp cexG 10 cexXs cexYs 1 1 1 1 (99/100))).map
        (fun st => st.2.1.score) = some (num (10/19)) ∧
    JsVal.gt (num 1) (num (10/19)) = true := by decide

/-- C3 (counterexample): on a model with two identical
`(exponent vector, function)` pairs and distinct coefficients, `sanitizeIT`
keeps the LATER occurrence (coefficient `7`), not the earlier one
(coefficient `5`): the source pushes the earlier index onto `toRemove`. -/
theorem sanitize_keeps_later_cex :
    (sanitizeIT dupPairIT).coeffs = [dupPairIT.coeffs.getD 1 .nan] ∧
    dupPairIT.coeffs.getD 1 .nan ≠ dupPairIT.coeffs.getD 0 .nan := by decide

/-- C4 (counterexample): on a model with three identical pairs, the splice
pass over-removes (duplicate indices in `toRemove` shift later splices),
empties the model, and `sanitizeIT` falls back to returning the input — which
still contains duplicate pairs — even though a proper deduplication would be
non-empty. -/
theorem sanitize_dup_retained_cex :
    sanitizeIT tripleIT = tripleIT ∧
    ¬ (tripleIT.terms.zip tripleIT.funcs).Nodup ∧
    (tripleIT.terms.zip tripleIT.funcs).dedup ≠ [] := by decide

/-- A mapped zip of two equal-length lists as an indexed map. -/
theorem zip_map_getD {α β δ : Type} (F : α → β → δ) (da : α) (db : β) :
    ∀ (a : List α) (b : List β), b.length = a.length →
      (a.zip b).map (fun p => F p.1 p.2) =
        (List.range a.length).map (fun i => F (a.getD i da) (b.getD i db)) := by
  intro a
  induction a with
  | nil => intro b hb; cases b <;> simp_all
  | cons x a' ih =>
    intro b hb
    cases b with
    | nil => simp at hb
    | cons y b' =>
      simp only [List.length_cons, List.range_succ_eq_map, List.map_cons,
        List.zip_cons_cons, List.getD_cons_zero, List.map_map]
      refine congrArg (F x y :: ·) ?_
      rw [ih b' (by simpa using hb)]
      simp [Function.comp_def]

/-- A mapped zip of three equal-length lists as an indexed map. -/
theorem zip3_map_getD {α β γ δ : Type} (F : α → β → γ → δ) (da : α) (db : β)
    (dc : γ) :
    ∀ (a : List α) (b : List β) (c : List γ), a.length = c.length →
      b.length = c.length →
      (a.zip (b.zip c)).map (fun x => F x.1 x.2.1 x.2.2) =
        (List.range c.length).map
          (fun i => F (a.getD i da) (b.getD i db) (c.getD i dc)) := by
  intro a
  induction a with
  | nil => intro b c ha hb; cases c <;> simp_all
  | cons x a' ih =>
    intro b c ha hb
    cases c with
    | nil => simp at ha
    | cons z c' =>
      cases b with
      | nil => simp at hb
      | cons y b' =>
        simp only [List.length_cons, List.range_succ_eq_map, List.map_cons,
          List.zip_cons_cons, List.getD_cons_zero, List.map_map]
        refine congrArg (F x y z :: ·) ?_
        rw [ih b' c' (by simpa using ha) (by simpa using hb)]
        simp [Function.comp_def]

unseal Rat.add Rat.mul Rat.inv Rat.sub in
/-- C2: `evaluate(model, X)` is the sum over all terms `i` of
`coeffs[i] * funcs[i](Π_v X[v] ^ terms[i][v])` (for index-aligned sequences
with one exponent per variable), and in particular the unfitted root model
`buildRoot(2)` evaluates at `X = [2, 3]` to `5`. -/
theorem eval_formula :
    (∀ (I : FnInterp) (IT : ITm) (X : List ℚ),
      IT.coeffs.length = IT.terms.length → IT.funcs.length = IT.terms.length →
      (∀ t ∈ IT.terms, t.length = X.length) →
      evalIT I IT X = evalSpecSum I IT X) ∧
    evalIT zeroInterp (buildRootIT 2) [2, 3] = num 5 := by
  constructor
  · intro I IT X hc hf ht
    unfold evalIT evalSpecSum jsSum
    rw [zip3_map_getD
      (fun c f t => JsVal.mul c (applyFn I f
        (jsProd ((X.zip t).map fun xt => jsPow xt.1 xt.2))))
      .nan Fn.id [] IT.coeffs IT.funcs IT.terms hc hf]
    refine congrArg (List.foldl JsVal.add (num 0)) ?_
    apply List.map_congr_left
    intro i hi
    have hlt : i < IT.terms.length := by simpa using hi
    have hgd : IT.terms.getD i [] = IT.terms[i] := by
      simp [List.getD_eq_getElem?_getD, List.getElem?_eq_getElem hlt]
    have hlen : (IT.terms.getD i []).length = X.length := by
      rw [hgd]
      exact ht _ (List.getElem_mem hlt)
    refine congrArg _ (congrArg _ (congrArg jsProd ?_))
    rw [zip_map_getD (fun x t => jsPow x t) 0 0 X (IT.terms.getD i []) hlen]
  · decide

unseal Rat.add Rat.mul Rat.inv Rat.sub in
/-- Witness for `eval_formula` at a concrete model and input. -/
theorem eval_formula_witness :
    (dupPairIT.coeffs.length = dupPairIT.terms.length ∧
      dupPairIT.funcs.length = dupPairIT.terms.length ∧
      (∀ t ∈ dupPairIT.terms, t.length = ([4] : List ℚ).length)) ∧
    evalIT zeroInterp dupPairIT [4] = evalSpecSum zeroInterp dupPairIT [4] :=
  ⟨by decide,
   eval_formula.1 zeroInterp dupPairIT [4] (by decide) (by decide) (by decide)⟩

/-- A value that can appear as a partial sum of absolute errors: a
nonnegative finite number, `Infinity`, or `NaN` (never `-Infinity`). -/
def AbsLike (v : JsVal) : Prop :=
  (∃ q, 0 ≤ q ∧ v = num q) ∨ v = .inf ∨ v = .nan

/-- `Math.abs` always produces an `AbsLike` value. -/
theorem absLike_abs (v : JsVal) : AbsLike v.abs := by
  cases v with
  | num q => exact Or.inl ⟨|q|, abs_nonneg q, rfl⟩
  | inf => exact Or.inr (Or.inl rfl)
  | ninf => exact Or.inr (Or.inl rfl)
  | nan => exact Or.inr (Or.inr rfl)

/-- Adding `AbsLike` values stays `AbsLike`. -/
theorem absLike_add {a b : JsVal} (ha : AbsLike a) (hb : AbsLike b) :
    AbsLike (JsVal.add a b) := by
  rcases ha with ⟨p, hp, rfl⟩ | rfl | rfl <;>
    rcases hb with ⟨q, hq, rfl⟩ | rfl | rfl <;>
      first
      | exact Or.inl ⟨p + q, by linarith, rfl⟩
      | exact Or.inr (Or.inl rfl)
      | exact Or.inr (Or.inr rfl)

/-- A left fold of `AbsLike` values by JS addition is `AbsLike`. -/
theorem absLike_foldl :
    ∀ (l : List JsVal) (acc : JsVal), AbsLike acc → (∀ x ∈ l, AbsLike x) →
      AbsLike (l.foldl JsVal.add acc) := by
  intro l
  induction l with
  | nil => intro acc hacc _; exact hacc
  | cons x l' ih =>
    intro acc hacc hl
    exact ih _ (absLike_add hacc (hl x (List.mem_cons_self x l')))
      fun y hy => hl y (List.mem_cons_of_mem x hy)

/-- The MAE is a nonnegative finite number, `Infinity`, or `NaN`. -/
theorem mae_cases (I : FnInterp) (IT : ITm) (Xs : List (List ℚ)) (ys : List ℚ) :
    (∃ q, 0 ≤ q ∧ maeOf I IT Xs ys = num q) ∨
      maeOf I IT Xs ys = .inf ∨ maeOf I IT Xs ys = .nan := by
  have hs : AbsLike (jsSum ((Xs.zip ys).map fun Xy =>
      JsVal.abs (JsVal.sub (evalIT I IT Xy.1) (num Xy.2)))) := by
    apply absLike_foldl
    · exact Or.inl ⟨0, le_refl 0, rfl⟩
    · intro x hx
      rcases List.mem_map.mp hx with ⟨Xy, _, rfl⟩
      exact absLike_abs _
  have hn : (0 : ℚ) ≤ (Xs.length : ℚ) := by positivity
  unfold maeOf jsSum
  rcases hs with ⟨s, hs0, hse⟩ | hse | hse <;> rw [jsSum] at hse <;> rw [hse]
  · by_cases hz : (Xs.length : ℚ) = 0
    · right
      rcases eq_or_lt_of_le hs0 with h0 | h0
      · right
        rw [hz, ← h0]
        simp [JsVal.div]
      · left
        rw [hz]
        simp [JsVal.div, h0.ne', h0]
    · left
      exact ⟨s / (Xs.length : ℚ), div_nonneg hs0 hn, by simp [JsVal.div, hz]⟩
  · right; left
    simp [JsVal.div, hn]
  · right; right
    rfl

/-- The score pipeline: `1/(1 + MAE)` when the MAE is a (necessarily
nonnegative) finite value — then it lies in `[0, 1]` — and `0` when the MAE
is non-finite. -/
theorem scoreOf_spec (I : FnInterp) (IT : ITm) (Xs : List (List ℚ))
    (ys : List ℚ) :
    (∀ m : ℚ, maeOf I IT Xs ys = num m →
      scoreOf I IT Xs ys = num (1 / (1 + m)) ∧
        0 ≤ 1 / (1 + m) ∧ 1 / (1 + m) ≤ 1) ∧
    ((maeOf I IT Xs ys).finite = false → scoreOf I IT Xs ys = num 0) := by
  rcases mae_cases I IT Xs ys with ⟨q, hq0, hqe⟩ | hse | hse
  · constructor
    · intro m hm
      rw [hqe] at hm
      cases hm
      have hpos : (0 : ℚ) < 1 + q := by linarith
      have hne : ¬ (1 + q) = 0 := by linarith
      have hsc : scoreOf I IT Xs ys = num (1 / (1 + q)) := by
        unfold scoreOf
        rw [hqe]
        simp [JsVal.add, JsVal.div, hne, JsVal.finite]
      refine ⟨hsc, by positivity, ?_⟩
      rw [div_le_one hpos]
      linarith
    · intro hfin
      rw [hqe] at hfin
      simp [JsVal.finite] at hfin
  · constructor
    · intro m hm; rw [hse] at hm; cases hm
    · intro _
      unfold scoreOf
      rw [hse]
      rfl
  · constructor
    · intro m hm; rw [hse] at hm; cases hm
    · intro _
      unfold scoreOf
      rw [hse]
      rfl

/-- `maeOf` never reads the `score` field. -/
theorem maeOf_set_score (I : FnInterp) (IT : ITm) (s : JsVal)
    (Xs : List (List ℚ)) (ys : List ℚ) :
    maeOf I { IT with score := s } Xs ys = maeOf I IT Xs ys := rfl

/-- C5: the score assigned by `fit` is `1/(1 + MAE)` and lies in `[0, 1]`
whenever the mean absolute error (computed on the refitted model) is finite,
and is `0` whenever the MAE is non-finite. -/
theorem fit_score_spec (I : FnInterp) (IT : ITm) (Xs : List (List ℚ))
    (ys : List ℚ) :
    (∀ m : ℚ, maeOf I (fitIT I IT Xs ys) Xs ys = num m →
      (fitIT I IT Xs ys).score = num (1 / (1 + m)) ∧
        0 ≤ 1 / (1 + m) ∧ 1 / (1 + m) ≤ 1) ∧
    ((maeOf I (fitIT I IT Xs ys) Xs ys).finite = false →
      (fitIT I IT Xs ys).score = num 0) := by
  unfold fitIT
  cases hns : normalSolve (designMatrix I IT Xs) (ys.map fun y => [num y]) with
  | some ws =>
    simp only [hns]
    exact scoreOf_spec I { IT with coeffs := ws } Xs ys
  | none =>
    simp only [hns]
    exact scoreOf_spec I IT Xs ys

unseal Rat.add Rat.mul Rat.inv Rat.sub in
/-- Witness for `fit_score_spec`: fitting the root model on the concrete
linear dataset yields MAE `0` and score `1`. -/
theorem fit_score_spec_witness :
    (maeOf zeroInterp (fitIT zeroInterp (buildRootIT 1) cexXs cexYs) cexXs cexYs
        = num 0) ∧
    ((fitIT zeroInterp (buildRootIT 1) cexXs cexYs).score = num (1 / (1 + 0)) ∧
      0 ≤ 1 / (1 + (0 : ℚ)) ∧ 1 / (1 + (0 : ℚ)) ≤ 1) :=
  ⟨by decide,
   (fit_score_spec zeroInterp (buildRootIT 1) cexXs cexYs).1 0 (by decide)⟩

/-- C6: when the Gram matrix `XsHatᵀ XsHat` cannot be inverted, `fit` keeps
the input model's coefficients (and terms and functions) unchanged, and still
computes and assigns the MAE-based score; the condition is caught locally and
no error propagates. -/
theorem fit_singular_keeps_coeffs (I : FnInterp) (IT : ITm)
    (Xs : List (List ℚ)) (ys : List ℚ)
    (hinv : matInv (matMul (transposeL (designMatrix I IT Xs))
      (designMatrix I IT Xs)) = none) :
    (fitIT I IT Xs ys).coeffs = IT.coeffs ∧
    (fitIT I IT Xs ys).terms = IT.terms ∧
    (fitIT I IT Xs ys).funcs = IT.funcs ∧
    (fitIT I IT Xs ys).score = scoreOf I IT Xs ys := by
  have hns : normalSolve (designMatrix I IT Xs) (ys.map fun y => [num y]) = none := by
    simp only [normalSolve]
    rw [hinv]
    rfl
  unfold fitIT
  simp only [hns]
  exact ⟨trivial, trivial, trivial, trivial⟩

unseal Rat.add Rat.mul Rat.inv Rat.sub in
/-- Witness for `fit_singular_keeps_coeffs`: a one-term model whose design
column is identically zero. -/
theorem fit_singular_keeps_coeffs_witness :
    matInv (matMul (transposeL (designMatrix zeroInterp oneTermIT [[0]]))
      (designMatrix zeroInterp oneTermIT [[0]])) = none ∧
    (fitIT zeroInterp oneTermIT [[0]] [1]).coeffs = oneTermIT.coeffs :=
  ⟨by decide,
   (fit_singular_keeps_coeffs zeroInterp oneTermIT [[0]] [1] (by decide)).1⟩

/-- A `createTerm` result is never the all-zero vector. -/
theorem createTerm_no_zero (g : ℕ → ℚ) (nvars : ℕ) (expolim : ℤ) :
    ∀ (fuel σ : ℕ) (t : List ℤ) (σ2 : ℕ),
      createTerm g nvars expolim fuel σ = some (t, σ2) →
      (t.all (· == 0)) = false := by
  intro fuel
  induction fuel with
  | zero => intro σ t σ2 h; exact absurd h (by simp [createTerm])
  | succ fuel ih =>
    intro σ t σ2 h
    rw [createTerm] at h
    by_cases hz : ((List.range nvars).map fun j =>
        drawExponent (g (σ + j)) expolim).all (· == 0) = true
    · rw [if_pos hz] at h
      exact ih _ _ _ h
    · rw [if_neg hz] at h
      cases h
      exact Bool.eq_false_iff.mpr hz

/-- Every term built by `buildTerms` is non-all-zero. -/
theorem buildTerms_no_zero (g : ℕ → ℚ) (nvars : ℕ) (expolim : ℤ)
    (fuel : ℕ) :
    ∀ (k σ : ℕ) (ts : List (List ℤ)) (σ2 : ℕ),
      buildTerms g nvars expolim fuel k σ = some (ts, σ2) →
      ∀ t ∈ ts, (t.all (· == 0)) = false := by
  intro k
  induction k with
  | zero =>
    intro σ ts σ2 h t ht
    rw [buildTerms] at h
    cases h
    simp at ht
  | succ k ih =>
    intro σ ts σ2 h t ht
    rw [buildTerms] at h
    rcases Option.bind_eq_some.mp h with ⟨⟨t1, σa⟩, h1, h2⟩
    rcases Option.bind_eq_some.mp h2 with ⟨⟨ts1, σb⟩, h3, h4⟩
    cases h4
    rcases List.mem_cons.mp ht with rfl | hmem
    · exact createTerm_no_zero g nvars expolim fuel σ t σa h1
    · exact ih σa ts1 _ h3 t hmem

/-- Every term of a `buildRandIT` model is non-all-zero. -/
theorem buildRand_no_zero (g : ℕ → ℚ) (nTerms nvars : ℕ) (expolim : ℤ)
    (fuel σ : ℕ) (M : ITm) (σ2 : ℕ)
    (h : buildRandIT g nTerms nvars expolim fuel σ = some (M, σ2)) :
    ∀ t ∈ M.terms, (t.all (· == 0)) = false := by
  rw [buildRandIT] at h
  rcases Option.bind_eq_some.mp h with ⟨⟨ts, σa⟩, h1, h2⟩
  simp only [Option.some.injEq] at h2
  cases h2
  intro t ht
  exact buildTerms_no_zero g nvars expolim fuel nTerms σ ts σa h1 t ht

/-- C8: if the single-exponent replacement leaves an all-zero exponent
vector anywhere in the model, `mutatetermsIT` discards the whole model and
returns a fresh `buildRandIT` of the same term count; consequently a
returned model never contains an all-zero exponent vector. -/
theorem mutateterms_spec (g : ℕ → ℚ) (fuel σ : ℕ) (IT : ITm) (nvars : ℕ)
    (expolim : ℤ) :
    ((mutatePerturb g σ IT nvars expolim).terms.any
        (fun term => term.all (· == 0)) = true →
      mutatetermsIT g fuel σ IT nvars expolim =
        buildRandIT g IT.length nvars expolim fuel (σ + 3)) ∧
    (∀ (M : ITm) (σ2 : ℕ),
      mutatetermsIT g fuel σ IT nvars expolim = some (M, σ2) →
      ∀ term ∈ M.terms, ¬ (term.all (· == 0)) = true) := by
  constructor
  · intro hz
    rw [mutatetermsIT, if_pos hz]
  · intro M σ2 h term hterm
    rw [mutatetermsIT] at h
    by_cases hz : (mutatePerturb g σ IT nvars expolim).terms.any
        (fun term => term.all (· == 0)) = true
    · rw [if_pos hz] at h
      exact Bool.eq_false_iff.mp
        (buildRand_no_zero g IT.length nvars expolim fuel (σ + 3) M σ2 h
          term hterm)
    · rw [if_neg hz] at h
      cases h
      exact List.any_eq_false.mp (Bool.eq_false_iff.mpr hz) term hterm

unseal Rat.add Rat.mul Rat.inv Rat.sub in
/-- Witness for `mutateterms_spec`: a draw stream that zeroes the single
exponent (triggering the rebuild) and one that keeps it nonzero. -/
theorem mutateterms_spec_witness :
    ((mutatePerturb (fun _ => 1/2) 0 oneTermIT 1 1).terms.any
        (fun term => term.all (· == 0)) = true ∧
      mutatetermsIT (fun _ => 1/2) 5 0 oneTermIT 1 1 =
        buildRandIT (fun _ => 1/2) 1 1 1 5 3) ∧
    (mutatetermsIT (fun _ => 3/4) 5 0 oneTermIT 1 1 = some (oneTermIT, 3) ∧
      ∀ term ∈ oneTermIT.terms, ¬ (term.all (· == 0)) = true) :=
  ⟨⟨by decide, (mutateterms_spec (fun _ => 1/2) 5 0 oneTermIT 1 1).1 (by decide)⟩,
   ⟨by decide, fun term hterm =>
      (mutateterms_spec (fun _ => 3/4) 5 0 oneTermIT 1 1).2 oneTermIT 3
        (by decide) term hterm⟩⟩

/-- `fitIT` never touches the cached `length` field. -/
theorem fitIT_length (I : FnInterp) (IT : ITm) (Xs : List (List ℚ))
    (ys : List ℚ) : (fitIT I IT Xs ys).length = IT.length := by
  unfold fitIT
  cases hns : normalSolve (designMatrix I IT Xs) (ys.map fun y => [num y]) <;>
    simp [hns]

/-- `fitIT` never touches `terms`. -/
theorem fitIT_terms (I : FnInterp) (IT : ITm) (Xs : List (List ℚ))
    (ys : List ℚ) : (fitIT I IT Xs ys).terms = IT.terms := by
  unfold fitIT
  cases hns : normalSolve (designMatrix I IT Xs) (ys.map fun y => [num y]) <;>
    simp [hns]

/-- `fitIT` never touches `funcs`. -/
theorem fitIT_funcs (I : FnInterp) (IT : ITm) (Xs : List (List ℚ))
    (ys : List ℚ) : (fitIT I IT Xs ys).funcs = IT.funcs := by
  unfold fitIT
  cases hns : normalSolve (designMatrix I IT Xs) (ys.map fun y => [num y]) <;>
    simp [hns]

/-- Members of `enum` have in-range first components. -/
theorem enum_fst_lt {α : Type} {l : List α} {p : ℕ × α} (hp : p ∈ l.enum) :
    p.1 < l.length := by
  have h := List.mem_enum_iff_getElem?.mp hp
  rcases List.getElem?_eq_some.mp h with ⟨hlt, _⟩
  exact hlt

/-- `enum` projects back to the list. -/
theorem enum_map_snd {α : Type} (l : List α) :
    l.enum.map Prod.snd = l :=
  List.enumFrom_map_snd 0 l

/-- `filterIdx` keeps everything when the predicate holds below the
length. -/
theorem filterIdx_all_true {α : Type} (l : List α) (keep : ℕ → Bool)
    (h : ∀ i, i < l.length → keep i = true) : filterIdx l keep = l := by
  unfold filterIdx
  rw [List.filter_eq_self.mpr fun p hp => h p.1 (enum_fst_lt hp)]
  exact enum_map_snd l

/-- `filterIdx` drops everything when the predicate fails below the
length. -/
theorem filterIdx_all_false {α : Type} (l : List α) (keep : ℕ → Bool)
    (h : ∀ i, i < l.length → keep i = false) : filterIdx l keep = [] := by
  unfold filterIdx
  have : l.enum.filter (fun p => keep p.1) = [] := by
    rw [List.filter_eq_nil_iff]
    intro p hp
    rw [h p.1 (enum_fst_lt hp)]
    exact Bool.false_ne_true
  rw [this]
  rfl

/-- `simplifyIT` preserves a nonzero cached `length`. -/
theorem simplify_length_ne_zero (I : FnInterp) :
    ∀ (fuel : ℕ) (IT : ITm) (Xs : List (List ℚ)) (ys : List ℚ) (nvars : ℕ)
      (th : ℚ), IT.length ≠ 0 →
      (simplifyIT I fuel IT Xs ys nvars th).length ≠ 0 := by
  intro fuel
  induction fuel with
  | zero => intro IT _ _ _ _ h0; exact h0
  | succ fuel ih =>
    intro IT Xs ys nvars th h0
    rw [simplifyIT]
    split
    · exact h0
    · split
      · exact h0
      · rename_i h1 _
        apply ih
        rw [fitIT_length]
        exact h1

/-- The spec-side pruning pass of `simplify`: from each parallel array
(each zipped with the coefficients) drop every entry whose fitted
coefficient fails `|coefficient| > threshold`, i.e. remove every term whose
`|coefficient| <= threshold`; the refreshed `length` counts the survivors
and the fresh object carries no score yet. -/
def pruneSpec (IT : ITm) (th : ℚ) : ITm :=
  { terms := ((IT.terms.zip IT.coeffs).filter fun p =>
      JsVal.gt (JsVal.abs p.2) (num th)).map Prod.fst
    funcs := ((IT.funcs.zip IT.coeffs).filter fun p =>
      JsVal.gt (JsVal.abs p.2) (num th)).map Prod.fst
    coeffs := IT.coeffs.filter fun c => JsVal.gt (JsVal.abs c) (num th)
    length := (IT.coeffs.filter fun c => JsVal.gt (JsVal.abs c) (num th)).length }

/-- Shifting the start of an enumeration increments every index. -/
theorem enumFrom_shift {α : Type} :
    ∀ (l : List α) (n : ℕ),
      List.enumFrom (n + 1) l =
        (List.enumFrom n l).map (fun p => (p.1 + 1, p.2)) := by
  intro l
  induction l with
  | nil => intro n; rfl
  | cons x l ih =>
    intro n
    rw [List.enumFrom_cons, List.enumFrom_cons, List.map_cons, ih (n + 1)]

/-- One step of the index-aware filter. -/
theorem filterIdx_cons {α : Type} (x : α) (l : List α) (keep : ℕ → Bool) :
    filterIdx (x :: l) keep =
      (if keep 0 then [x] else []) ++ filterIdx l (fun i => keep (i + 1)) := by
  unfold filterIdx
  rw [List.enum_cons, List.filter_cons]
  have hshift : List.enumFrom 1 l = l.enum.map (fun p => (p.1 + 1, p.2)) :=
    enumFrom_shift l 0
  rw [hshift]
  by_cases hk : keep 0 = true
  · rw [if_pos (show keep (0, x).1 = true from hk), if_pos hk]
    simp only [List.filter_map, List.map_cons, List.map_map,
      List.singleton_append]
    rfl
  · rw [if_neg (show ¬ keep (0, x).1 = true from hk), if_neg hk]
    simp only [List.filter_map, List.map_map, List.nil_append]
    rfl

/-- The index-aware filter against a parallel array of coefficients is the
coefficient-filtered zip, projected back. -/
theorem filterIdx_zip {α : Type} (test : JsVal → Bool) :
    ∀ (l : List α) (c : List JsVal), l.length ≤ c.length →
      filterIdx l (fun i => test (c.getD i .nan)) =
        ((l.zip c).filter fun p => test p.2).map Prod.fst := by
  intro l
  induction l with
  | nil => intro c _; simp [filterIdx]
  | cons x l ih =>
    intro c hlen
    cases c with
    | nil => simp at hlen
    | cons y c =>
      rw [filterIdx_cons, List.zip_cons_cons, List.filter_cons]
      simp only [List.getD_cons_zero, List.getD_cons_succ]
      rw [ih c (by simpa using hlen)]
      by_cases ht : test y = true
      · rw [if_pos ht, if_pos ht]
        simp
      · rw [if_neg ht, if_neg ht]
        simp

/-- The index-aware filter of the coefficients against themselves is the
plain filter. -/
theorem filterIdx_self_filter (test : JsVal → Bool) :
    ∀ (c : List JsVal),
      filterIdx c (fun i => test (c.getD i .nan)) = c.filter test := by
  intro c
  induction c with
  | nil => rfl
  | cons y c ih =>
    rw [filterIdx_cons, List.filter_cons]
    simp only [List.getD_cons_zero, List.getD_cons_succ]
    rw [ih]
    by_cases ht : test y = true
    · rw [if_pos ht, if_pos ht]
      rfl
    · rw [if_neg ht, if_neg ht]
      rfl

/-- C7: on a well-formed non-empty model, one `simplifyIT` pass forms
exactly the spec-side pruned model `pruneSpec` — it removes every term whose
fitted `|coefficient| <= threshold` and keeps the others in order across the
three parallel arrays; if that pass would remove every term it is skipped
and the pre-pruning model is returned; if it removes no term the model is
returned unchanged (the repetition has stopped); otherwise the pruned model
is re-fitted and simplification repeats on the result; and the result never
has `length = 0`. -/
theorem simplify_spec (I : FnInterp) (fuel : ℕ) (IT : ITm)
    (Xs : List (List ℚ)) (ys : List ℚ) (nvars : ℕ) (th : ℚ)
    (h0 : IT.length ≠ 0) (hWF : WF IT) :
    (simplifyIT I fuel IT Xs ys nvars th).length ≠ 0 ∧
    ((pruneSpec IT th).length = 0 →
      simplifyIT I (fuel + 1) IT Xs ys nvars th = IT) ∧
    ((pruneSpec IT th).length = IT.length →
      simplifyIT I (fuel + 1) IT Xs ys nvars th = IT) ∧
    ((pruneSpec IT th).length ≠ 0 → (pruneSpec IT th).length ≠ IT.length →
      simplifyIT I (fuel + 1) IT Xs ys nvars th =
        simplifyIT I fuel (fitIT I (pruneSpec IT th) Xs ys) Xs ys nvars th) := by
  have hterm2 : filterIdx IT.terms (fun index =>
      JsVal.gt (JsVal.abs (IT.coeffs.getD index .nan)) (num th)) =
      (pruneSpec IT th).terms :=
    filterIdx_zip (fun v => JsVal.gt (JsVal.abs v) (num th)) IT.terms
      IT.coeffs (le_of_eq (hWF.1.trans hWF.2.2.symm))
  have hfunc2 : filterIdx IT.funcs (fun index =>
      JsVal.gt (JsVal.abs (IT.coeffs.getD index .nan)) (num th)) =
      (pruneSpec IT th).funcs :=
    filterIdx_zip (fun v => JsVal.gt (JsVal.abs v) (num th)) IT.funcs
      IT.coeffs (le_of_eq (hWF.2.1.trans hWF.2.2.symm))
  have hcoeff2 : filterIdx IT.coeffs (fun index =>
      JsVal.gt (JsVal.abs (IT.coeffs.getD index .nan)) (num th)) =
      (pruneSpec IT th).coeffs :=
    filterIdx_self_filter (fun v => JsVal.gt (JsVal.abs v) (num th)) IT.coeffs
  refine ⟨simplify_length_ne_zero I fuel IT Xs ys nvars th h0, ?_, ?_, ?_⟩
  · intro hlen0
    rw [simplifyIT, hterm2, hfunc2, hcoeff2]
    rw [if_pos (show (pruneSpec IT th).coeffs.length = 0 from hlen0)]
  · intro hlenEq
    rw [simplifyIT, hterm2, hfunc2, hcoeff2]
    rw [if_neg (show ¬ (pruneSpec IT th).coeffs.length = 0 from
      fun hcon => h0 (hlenEq ▸ hcon))]
    rw [if_pos (show (pruneSpec IT th).coeffs.length = IT.length from hlenEq)]
  · intro hlen0 hlenNe
    rw [simplifyIT, hterm2, hfunc2, hcoeff2]
    rw [if_neg (show ¬ (pruneSpec IT th).coeffs.length = 0 from hlen0)]
    rw [if_neg (show ¬ (pruneSpec IT th).coeffs.length = IT.length from hlenNe)]
    rfl

/-- A two-term model with one large and one negligible coefficient for the
`simplify_spec` witness: its pruning pass removes some but not all terms. -/
def mixedIT : ITm :=
  { terms := [[1], [2]], funcs := [.id, .id]
    coeffs := [num 5, num (1/1000)], length := 2 }

unseal Rat.add Rat.mul Rat.inv Rat.sub in
/-- Witness for `simplify_spec`: on the mixed model the pass keeps exactly
the large-coefficient term and simplification recurses on the re-fitted
pruned model. -/
theorem simplify_spec_witness :
    (mixedIT.length ≠ 0 ∧ WF mixedIT ∧
      (pruneSpec mixedIT (1/200)).length ≠ 0 ∧
      (pruneSpec mixedIT (1/200)).length ≠ mixedIT.length) ∧
    ((simplifyIT zeroInterp 3 mixedIT cexXs cexYs 1 (1/200)).length ≠ 0 ∧
      simplifyIT zeroInterp (2 + 1) mixedIT cexXs cexYs 1 (1/200) =
        simplifyIT zeroInterp 2
          (fitIT zeroInterp (pruneSpec mixedIT (1/200)) cexXs cexYs)
          cexXs cexYs 1 (1/200)) :=
  ⟨⟨by decide, by decide, by decide, by decide⟩,
   ⟨(simplify_spec zeroInterp 3 mixedIT cexXs cexYs 1 (1/200) (by decide)
       (by decide)).1,
    (simplify_spec zeroInterp 2 mixedIT cexXs cexYs 1 (1/200) (by decide)
       (by decide)).2.2.2 (by decide) (by decide)⟩⟩

/-- Membership in a conditionally empty list. -/
theorem mem_ite_nil {α : Type} (P : Prop) [Decidable P] (l : List α) (a : α) :
    (a ∈ if P then l else []) ↔ P ∧ a ∈ l := by
  by_cases h : P <;> simp [h]

/-- A mapped zip of integer lists is a `zipWith`. -/
theorem zip_map_eq_zipWith (f : ℤ → ℤ → ℤ) :
    ∀ (a b : List ℤ), (a.zip b).map (fun p => f p.1 p.2) = List.zipWith f a b := by
  intro a
  induction a with
  | nil => intro b; simp
  | cons x a' ih =>
    intro b
    cases b with
    | nil => simp
    | cons y b' => simp [ih]

/-- C9: a candidate is in `SYMTREE`'s filtered expansion list for a leaf at
iteration `i` exactly when it is a pair sum (for `j ≤ k`), a pair difference
once `i ≥ minI`, or a function swap (to a different library function) once
`i ≥ minT` — and its composition onto a copy of the leaf, sanitized and
fitted, scores strictly above the leaf. -/
theorem symtree_candidates (I : FnInterp) (Xs : List (List ℚ)) (ys : List ℚ)
    (i minI minT : ℤ) (leaf : ITm) (c : NewTerm) :
    c ∈ (symtreeExpand i minI minT leaf).filter (symtreeImproves I Xs ys leaf) ↔
      ((∃ j k, j ≤ k ∧ k < leaf.length ∧ c = sumCand leaf j k) ∨
        (minI ≤ i ∧ ∃ j k, j ≤ k ∧ k < leaf.length ∧ c = diffCand leaf j k) ∨
        (minT ≤ i ∧ ∃ j f, j < leaf.length ∧ f ∈ funsKeys ∧
          f ≠ leaf.funcs.getD j Fn.id ∧ c = swapCand leaf j f)) ∧
      symtreeImproves I Xs ys leaf c = true := by
  rw [List.mem_filter]
  refine and_congr_left fun _ => ?_
  unfold symtreeExpand
  simp only [List.mem_flatMap, List.mem_append, List.mem_range, List.mem_cons,
    List.mem_range'_1, mem_ite_nil, List.mem_map, List.mem_filter,
    List.not_mem_nil, or_false, decide_eq_true_eq]
  have hsum : ∀ j k, ({ term := ((leaf.terms.getD j []).zip
      (leaf.terms.getD k [])).map fun p => p.1 + p.2, func := Fn.id } : NewTerm)
      = sumCand leaf j k := by
    intro j k
    unfold sumCand
    rw [zip_map_eq_zipWith (· + ·)]
  have hdiff : ∀ j k, ({ term := ((leaf.terms.getD j []).zip
      (leaf.terms.getD k [])).map fun p => p.1 - p.2, func := Fn.id } : NewTerm)
      = diffCand leaf j k := by
    intro j k
    unfold diffCand
    rw [zip_map_eq_zipWith (· - ·)]
  constructor
  · rintro ⟨j, hj, ⟨k, ⟨hjk, hk⟩, rfl | ⟨hminI, rfl⟩⟩ | ⟨hminT, f, ⟨hf, hne⟩, rfl⟩⟩
    · exact Or.inl ⟨j, k, hjk, by omega, hsum j k⟩
    · exact Or.inr (Or.inl ⟨hminI, j, k, hjk, by omega, hdiff j k⟩)
    · exact Or.inr (Or.inr ⟨hminT, j, f, hj, hf, hne, rfl⟩)
  · rintro (⟨j, k, hjk, hk, rfl⟩ | ⟨hminI, j, k, hjk, hk, rfl⟩ |
      ⟨hminT, j, f, hj, hf, hne, rfl⟩)
    · exact ⟨j, by omega, Or.inl ⟨k, ⟨hjk, by omega⟩, Or.inl (hsum j k).symm⟩⟩
    · exact ⟨j, by omega, Or.inl ⟨k, ⟨hjk, by omega⟩, Or.inr ⟨hminI, (hdiff j k).symm⟩⟩⟩
    · exact ⟨j, hj, Or.inr ⟨hminT, f, ⟨hf, hne⟩, rfl⟩⟩

/-- `eraseFold` over a cons peels one splice. -/
theorem eraseFold_cons {α : Type} (l : List α) (d : ℕ) (ds : List ℕ) :
    eraseFold l (d :: ds) = eraseFold (l.eraseIdx d) ds := rfl

/-- The splice fold yields a sublist. -/
theorem eraseFold_sublist {α : Type} :
    ∀ (ds : List ℕ) (l : List α), List.Sublist (eraseFold l ds) l := by
  intro ds
  induction ds with
  | nil => intro l; exact List.Sublist.refl l
  | cons d ds ih =>
    intro l
    exact (ih (l.eraseIdx d)).trans (List.eraseIdx_sublist l d)

/-- `eraseIdx` commutes with `map`. -/
theorem eraseIdx_map {α β : Type} (f : α → β) :
    ∀ (l : List α) (i : ℕ), (l.map f).eraseIdx i = (l.eraseIdx i).map f := by
  intro l
  induction l with
  | nil => intro i; rfl
  | cons x l' ih =>
    intro i
    cases i with
    | zero => rfl
    | succ i => simp [List.eraseIdx_cons_succ, ih]

/-- The splice fold commutes with `map`. -/
theorem eraseFold_map {α β : Type} (f : α → β) :
    ∀ (ds : List ℕ) (l : List α),
      eraseFold (l.map f) ds = (eraseFold l ds).map f := by
  intro ds
  induction ds with
  | nil => intro l; rfl
  | cons d ds ih =>
    intro l
    rw [eraseFold_cons, eraseFold_cons, eraseIdx_map, ih]

/-- Any list is the indexed map of its positions. -/
theorem self_eq_map_range_getD {α : Type} (l : List α) (d : α) :
    l = (List.range l.length).map (fun i => l.getD i d) := by
  apply List.ext_getElem
  · simp
  · intro i h1 h2
    simp only [List.getElem_map, List.getElem_range,
      List.getD_eq_getElem?_getD, List.getElem?_eq_getElem h1]
    rfl

/-- The splice fold on any list is the indexed map over the surviving
positions. -/
theorem eraseFold_as_map {α : Type} (l : List α) (d : α) (ds : List ℕ) :
    eraseFold l ds =
      (eraseFold (List.range l.length) ds).map (fun i => l.getD i d) := by
  conv_lhs => rw [self_eq_map_range_getD l d]
  exact eraseFold_map _ ds (List.range l.length)

/-- A list of copies of one value is `≤`-sorted. -/
theorem pairwise_le_of_all_eq {l : List ℕ} {c : ℕ} (h : ∀ x ∈ l, x = c) :
    l.Pairwise (· ≤ ·) := by
  induction l with
  | nil => exact List.Pairwise.nil
  | cons x l' ih =>
    refine List.Pairwise.cons ?_ (ih fun y hy => h y (List.mem_cons_of_mem _ hy))
    intro y hy
    rw [h x (List.mem_cons_self _ _), h y (List.mem_cons_of_mem _ hy)]

/-- Lists of length at most one are `<`-sorted. -/
theorem pairwise_lt_of_short {l : List ℕ} (h : l.length ≤ 1) :
    l.Pairwise (· < ·) := by
  match l with
  | [] => exact List.Pairwise.nil
  | [x] => exact List.pairwise_singleton _ _
  | x :: y :: rest => simp at h

/-- A `flatMap` over `range` whose batch at `t` holds only copies of `t` is
`≤`-sorted. -/
theorem pairwise_flatMap_le (f : ℕ → List ℕ)
    (hf : ∀ t, ∀ x ∈ f t, x = t) :
    ∀ n, ((List.range n).flatMap f).Pairwise (· ≤ ·) := by
  intro n
  induction n with
  | zero => simp
  | succ n ih =>
    rw [List.range_succ, List.flatMap_append, List.pairwise_append]
    refine ⟨ih, ?_, ?_⟩
    · simp only [List.flatMap_cons, List.flatMap_nil, List.append_nil]
      exact pairwise_le_of_all_eq (hf n)
    · intro a ha b hb
      simp only [List.flatMap_cons, List.flatMap_nil, List.append_nil] at hb
      rcases List.mem_flatMap.mp ha with ⟨t, ht, hat⟩
      rw [hf t a hat, hf n b hb]
      exact le_of_lt (List.mem_range.mp ht)

/-- With batches of at most one element, the same `flatMap` is
`<`-sorted (hence has no duplicates). -/
theorem pairwise_flatMap_lt (f : ℕ → List ℕ)
    (hf : ∀ t, ∀ x ∈ f t, x = t) (hlen : ∀ t, (f t).length ≤ 1) :
    ∀ n, ((List.range n).flatMap f).Pairwise (· < ·) := by
  intro n
  induction n with
  | zero => simp
  | succ n ih =>
    rw [List.range_succ, List.flatMap_append, List.pairwise_append]
    refine ⟨ih, ?_, ?_⟩
    · simp only [List.flatMap_cons, List.flatMap_nil, List.append_nil]
      exact pairwise_lt_of_short (hlen n)
    · intro a ha b hb
      simp only [List.flatMap_cons, List.flatMap_nil, List.append_nil] at hb
      rcases List.mem_flatMap.mp ha with ⟨t, ht, hat⟩
      rw [hf t a hat, hf n b hb]
      exact List.mem_range.mp ht

/-- The batch pushed for index `t` holds only copies of `t`. -/
theorem toRemove_batch_all_eq (IT : ITm) (t : ℕ) :
    ∀ x ∈ (if (IT.terms.getD t []).all (· == 0) then [t]
      else ((List.range' (t + 1) (IT.length - (t + 1))).filter fun i =>
        zipEqInt (IT.terms.getD t []) (IT.terms.getD i []) &&
          (IT.funcs.getD t Fn.id == IT.funcs.getD i Fn.id)).map fun _ => t),
      x = t := by
  intro x hx
  by_cases hz : (IT.terms.getD t []).all (· == 0) = true
  · rw [if_pos hz] at hx
    exact List.mem_singleton.mp hx
  · rw [if_neg hz] at hx
    rcases List.mem_map.mp hx with ⟨b, _, rfl⟩
    rfl

/-- `toRemoveList` membership: an index is pushed exactly when its vector is
all-zero or a later index carries the same pair. -/
theorem toRemove_mem_iff (IT : ITm) (v : ℕ) :
    v ∈ toRemoveList IT ↔
      v < IT.terms.length ∧ (zeroTermAt IT v ∨ ∃ b, dupMatch IT v b) := by
  unfold toRemoveList
  rw [List.mem_flatMap]
  constructor
  · rintro ⟨t, ht, hv⟩
    have htn := List.mem_range.mp ht
    have hvt := toRemove_batch_all_eq IT t v hv
    subst hvt
    by_cases hz : (IT.terms.getD v []).all (· == 0) = true
    · exact ⟨htn, Or.inl hz⟩
    · rw [if_neg hz] at hv
      rcases List.mem_map.mp hv with ⟨b, hb, _⟩
      rcases List.mem_filter.mp hb with ⟨hbr, hcond⟩
      have hrange := List.mem_range'_1.mp hbr
      rcases Bool.and_eq_true_iff.mp hcond with ⟨hzip, hfeq⟩
      exact ⟨htn, Or.inr ⟨b, by omega, by omega, hzip, beq_iff_eq.mp hfeq⟩⟩
  · rintro ⟨hv, hcase⟩
    refine ⟨v, List.mem_range.mpr hv, ?_⟩
    by_cases hz : (IT.terms.getD v []).all (· == 0) = true
    · rw [if_pos hz]
      exact List.mem_singleton.mpr rfl
    · rcases hcase with hzc | ⟨b, hvb, hbl, hzip, hfeq⟩
      · exact absurd hzc hz
      · rw [if_neg hz]
        refine List.mem_map.mpr ⟨b, List.mem_filter.mpr ⟨?_, ?_⟩, rfl⟩
        · exact List.mem_range'_1.mpr ⟨by omega, by omega⟩
        · exact Bool.and_eq_true_iff.mpr ⟨hzip, beq_iff_eq.mpr hfeq⟩

/-- Every index in the (non-increasing) splice list gets its own original
element removed: no survivor of the fold sits at a marked original position.
This holds even when the splice list repeats indices — repeats merely remove
extra elements. -/
theorem eraseFold_marked :
    ∀ (ds : List ℕ) (tl : List ℕ), tl.Nodup →
      ds.Pairwise (· ≥ ·) →
      (∀ v ∈ ds, (∃ h : v < tl.length, tl[v] = v) ∨ v ∉ tl) →
      ∀ v ∈ ds, v ∉ eraseFold tl ds := by
  intro ds
  induction ds with
  | nil => intro tl _ _ _ v hv; simp at hv
  | cons d ds ih =>
    intro tl hnd hsort hinv v hv
    rw [eraseFold_cons]
    have hd_not : d ∉ tl.eraseIdx d := by
      rcases hinv d (List.mem_cons_self _ _) with ⟨hd, hget⟩ | hd_out
      · intro hmem
        rcases List.mem_iff_getElem.mp hmem with ⟨p, hp, hpe⟩
        have hinj := List.nodup_iff_injective_getElem.mp hnd
        rw [List.getElem_eraseIdx] at hpe
        split at hpe
        · rename_i hpd
          have hpl : p < tl.length := by
            have := List.length_eraseIdx_le tl d
            omega
          have : p = d := by
            have h2 : (fun i : Fin tl.length => tl[i.1]) ⟨p, hpl⟩ =
                (fun i : Fin tl.length => tl[i.1]) ⟨d, hd⟩ := by
              simp only
              rw [hpe, hget]
            exact congrArg Fin.val (hinj h2)
          omega
        · rename_i hpd
          have hplt : p + 1 < tl.length := by
            rw [List.length_eraseIdx] at hp
            split at hp <;> omega
          have : p + 1 = d := by
            have h2 : (fun i : Fin tl.length => tl[i.1]) ⟨p + 1, hplt⟩ =
                (fun i : Fin tl.length => tl[i.1]) ⟨d, hd⟩ := by
              simp only
              rw [hpe, hget]
            exact congrArg Fin.val (hinj h2)
          omega
      · intro hmem
        exact hd_out (List.mem_of_mem_eraseIdx hmem)
    have hnd2 : (tl.eraseIdx d).Nodup := (List.eraseIdx_sublist tl d).nodup hnd
    have hhead := (List.pairwise_cons.mp hsort).1
    have hsort2 := (List.pairwise_cons.mp hsort).2
    have hinv2 : ∀ w ∈ ds,
        (∃ h : w < (tl.eraseIdx d).length, (tl.eraseIdx d)[w] = w) ∨
          w ∉ tl.eraseIdx d := by
      intro w hw
      rcases hinv w (List.mem_cons_of_mem _ hw) with ⟨hwl, hwe⟩ | hwo
      · by_cases hwd : w = d
        · subst hwd
          exact Or.inr hd_not
        · have hwlt : w < d := lt_of_le_of_ne (hhead w hw) hwd
          by_cases hdl : d < tl.length
          · left
            have hlen : (tl.eraseIdx d).length = tl.length - 1 :=
              List.length_eraseIdx_of_lt hdl
            refine ⟨by omega, ?_⟩
            rw [List.getElem_eraseIdx_of_lt tl d w (by omega) hwlt]
            exact hwe
          · left
            rw [List.eraseIdx_of_length_le (by omega)]
            exact ⟨hwl, hwe⟩
      · right
        intro hmm
        exact hwo (List.mem_of_mem_eraseIdx hmm)
    rcases List.mem_cons.mp hv with rfl | hv2
    · intro hmem
      exact hd_not ((eraseFold_sublist ds (tl.eraseIdx v)).subset hmem)
    · exact ih (tl.eraseIdx d) hnd2 hsort2 hinv2 v hv2

/-- Splicing the position of a value out of a duplicate-free list is the same
as filtering that value out. -/
theorem eraseIdx_eq_filter_of_nodup {α : Type} [DecidableEq α] :
    ∀ (tl : List α) (d : ℕ) (a : α), tl.Nodup →
      ∀ (h : d < tl.length), tl[d] = a →
      tl.eraseIdx d = tl.filter (fun x => x != a) := by
  intro tl
  induction tl with
  | nil => intro d a _ h; simp at h
  | cons x tl2 ih =>
    intro d a hnd h hget
    cases d with
    | zero =>
      have hxa : x = a := hget
      subst hxa
      have hx_not : x ∉ tl2 := (List.nodup_cons.mp hnd).1
      have hself : List.filter (fun y => y != x) tl2 = tl2 :=
        List.filter_eq_self.mpr (by
          intro y hy
          simp only [bne_iff_ne, ne_eq]
          intro hya
          subst hya
          exact hx_not hy)
      simp only [List.eraseIdx_zero, List.tail_cons, List.filter_cons,
        bne_self_eq_false, Bool.false_eq_true, if_false]
      exact hself.symm
    | succ d =>
      have hd2 : d < tl2.length := by simpa using h
      have hget2 : tl2[d] = a := hget
      have hx_not : x ∉ tl2 := (List.nodup_cons.mp hnd).1
      have hxa : (x != a) = true := by
        simp only [bne_iff_ne, ne_eq]
        intro hya
        subst hya
        exact hx_not (hget2 ▸ List.getElem_mem hd2)
      rw [List.eraseIdx_cons_succ, List.filter_cons, if_pos hxa]
      exact congrArg (x :: ·) (ih d a (List.nodup_cons.mp hnd).2 hd2 hget2)

/-- With a strictly decreasing, in-position splice list, the fold keeps
exactly the unmarked positions. -/
theorem eraseFold_nodup_eq_filter :
    ∀ (ds : List ℕ) (tl : List ℕ), tl.Nodup → ds.Pairwise (· > ·) →
      (∀ v ∈ ds, ∃ h : v < tl.length, tl[v] = v) →
      eraseFold tl ds = tl.filter (fun x => !ds.contains x) := by
  intro ds
  induction ds with
  | nil =>
    intro tl _ _ _
    have hself : List.filter (fun x => !List.contains [] x) tl = tl :=
      List.filter_eq_self.mpr (by intro y _; simp)
    rw [hself]
    rfl
  | cons d ds ih =>
    intro tl hnd hsort hpos
    obtain ⟨hd, hget⟩ := hpos d (List.mem_cons_self _ _)
    have hhead := (List.pairwise_cons.mp hsort).1
    have hpos2 : ∀ v ∈ ds, ∃ h : v < (tl.eraseIdx d).length,
        (tl.eraseIdx d)[v] = v := by
      intro w hw
      obtain ⟨hwl, hwe⟩ := hpos w (List.mem_cons_of_mem _ hw)
      have hwlt : w < d := hhead w hw
      have hlen : (tl.eraseIdx d).length = tl.length - 1 :=
        List.length_eraseIdx_of_lt hd
      refine ⟨by omega, ?_⟩
      rw [List.getElem_eraseIdx_of_lt tl d w (by omega) hwlt]
      exact hwe
    rw [eraseFold_cons,
      ih (tl.eraseIdx d) ((List.eraseIdx_sublist tl d).nodup hnd)
        (List.pairwise_cons.mp hsort).2 hpos2,
      eraseIdx_eq_filter_of_nodup tl d d hnd hd hget,
      List.filter_filter]
    congr 1
    funext x
    by_cases hxd : x = d
    · subst hxd
      simp
    · by_cases hxs : x ∈ ds <;> simp [hxs, hxd, Ne.symm hxd]

/-- `toRemoveList` is produced in non-decreasing index order. -/
theorem toRemove_pairwise_le (IT : ITm) :
    (toRemoveList IT).Pairwise (· ≤ ·) :=
  pairwise_flatMap_le _ (toRemove_batch_all_eq IT) _

/-- The surviving positions form a sublist of all positions. -/
theorem keptIdx_sublist (IT : ITm) :
    List.Sublist (keptIdx IT) (List.range IT.terms.length) :=
  eraseFold_sublist _ _

/-- The surviving positions are distinct. -/
theorem keptIdx_nodup (IT : ITm) : (keptIdx IT).Nodup :=
  (keptIdx_sublist IT).nodup (List.nodup_range _)

/-- The surviving positions are in range. -/
theorem keptIdx_lt (IT : ITm) : ∀ v ∈ keptIdx IT, v < IT.terms.length :=
  fun _ hv => List.mem_range.mp ((keptIdx_sublist IT).subset hv)

/-- No removed position survives the splice fold. -/
theorem keptIdx_not_marked (IT : ITm) :
    ∀ v ∈ toRemoveList IT, v ∉ keptIdx IT := by
  intro v hv
  have hrev : v ∈ (toRemoveList IT).reverse := List.mem_reverse.mpr hv
  refine eraseFold_marked _ (List.range IT.terms.length) (List.nodup_range _)
    ?_ ?_ v hrev
  · rw [List.pairwise_reverse]
    exact toRemove_pairwise_le IT
  · intro w hw
    have hwm := List.mem_reverse.mp hw
    have hwlt : w < IT.terms.length := ((toRemove_mem_iff IT w).mp hwm).1
    exact Or.inl ⟨by simpa using hwlt, by simp⟩

/-- Every surviving position is "good": not all-zero and without a later
duplicate. -/
theorem keptIdx_good (IT : ITm) :
    ∀ v ∈ keptIdx IT, v < IT.terms.length ∧ ¬ zeroTermAt IT v ∧
      ∀ b, ¬ dupMatch IT v b := by
  intro v hv
  have hvlt := keptIdx_lt IT v hv
  refine ⟨hvlt, ?_, ?_⟩
  · intro hz
    exact keptIdx_not_marked IT v
      ((toRemove_mem_iff IT v).mpr ⟨hvlt, Or.inl hz⟩) hv
  · intro b hb
    exact keptIdx_not_marked IT v
      ((toRemove_mem_iff IT v).mpr ⟨hvlt, Or.inr ⟨b, hb⟩⟩) hv

/-- The splice fold on a parallel array is the indexed map over the kept
positions. -/
theorem eraseFold_keptIdx {α : Type} (IT : ITm) (l : List α) (d : α)
    (hlen : l.length = IT.terms.length) :
    eraseFold l (toRemoveList IT).reverse =
      (keptIdx IT).map (fun i => l.getD i d) := by
  rw [eraseFold_as_map l d, hlen]
  rfl

/-- In the non-empty case, `sanitizeIT`'s fields are the indexed maps over
the kept positions. -/
theorem sanitize_fields (IT : ITm) (hWF : WF IT)
    (hne : sanitizeEmptied IT = false) :
    (sanitizeIT IT).terms = (keptIdx IT).map (fun v => IT.terms.getD v []) ∧
    (sanitizeIT IT).funcs = (keptIdx IT).map (fun v => IT.funcs.getD v Fn.id) ∧
    (sanitizeIT IT).coeffs = (keptIdx IT).map (fun v => IT.coeffs.getD v .nan) ∧
    (sanitizeIT IT).length = (keptIdx IT).length ∧
    (sanitizeIT IT).score = IT.score := by
  have hterms := eraseFold_keptIdx IT IT.terms [] rfl
  have hfuncs := eraseFold_keptIdx IT IT.funcs Fn.id (hWF.2.1.trans hWF.1.symm)
  have hcoeffs := eraseFold_keptIdx IT IT.coeffs .nan (hWF.2.2.trans hWF.1.symm)
  have hlen0 : ¬ (eraseFold IT.terms (toRemoveList IT).reverse).length = 0 := by
    unfold sanitizeEmptied at hne
    simpa using hne
  unfold sanitizeIT
  rw [if_neg hlen0]
  refine ⟨hterms, hfuncs, hcoeffs, ?_, rfl⟩
  show (eraseFold IT.terms (toRemoveList IT).reverse).length = _
  rw [hterms, List.length_map]

/-- `zipEqInt` holds on equal vectors. -/
theorem zipEqInt_of_eq {a b : List ℤ} (h : a = b) : zipEqInt a b = true := by
  subst h
  unfold zipEqInt
  induction a with
  | nil => rfl
  | cons x t ih => simpa using ih

/-- When the splice pass empties the model, `sanitizeIT` returns the
pre-sanitize input unchanged. -/
theorem sanitize_revert (IT : ITm) (hemp : sanitizeEmptied IT = true) :
    sanitizeIT IT = IT := by
  unfold sanitizeEmptied at hemp
  have h0 : (eraseFold IT.terms (toRemoveList IT).reverse).length = 0 := by
    simpa using hemp
  unfold sanitizeIT
  rw [if_pos h0]

/-- When the splice pass does not empty a well-formed model, `sanitizeIT`
returns a model with no all-zero exponent vector and no duplicated
`(exponent vector, function)` pair. -/
theorem sanitize_clean (IT : ITm) (hWF : WF IT)
    (hne : sanitizeEmptied IT = false) :
    (∀ term ∈ (sanitizeIT IT).terms, ¬ (term.all (· == 0)) = true) ∧
    ((sanitizeIT IT).terms.zip (sanitizeIT IT).funcs).Nodup := by
  obtain ⟨hterms, hfuncs, _, _, _⟩ := sanitize_fields IT hWF hne
  constructor
  · intro term hterm
    rw [hterms] at hterm
    rcases List.mem_map.mp hterm with ⟨v, hv, rfl⟩
    exact (keptIdx_good IT v hv).2.1
  · rw [hterms, hfuncs, List.zip_map']
    refine List.Nodup.map_on ?_ (keptIdx_nodup IT)
    intro x hx y hy hxy
    have hpair := Prod.mk.injEq .. |>.mp hxy
    by_contra hne2
    rcases lt_trichotomy x y with hlt | heq | hgt
    · exact (keptIdx_good IT x hx).2.2 y
        ⟨hlt, hWF.1 ▸ keptIdx_lt IT y hy, zipEqInt_of_eq hpair.1, hpair.2⟩
    · exact hne2 heq
    · exact (keptIdx_good IT y hy).2.2 x
        ⟨hgt, hWF.1 ▸ keptIdx_lt IT x hx, zipEqInt_of_eq hpair.1.symm,
          hpair.2.symm⟩

/-- C4 (amended): for a well-formed model, when the splice pass does not
empty the model, `sanitizeIT` returns a model with no all-zero exponent
vector and no duplicated `(exponent vector, function)` pair; when the pass
empties the model, the pre-sanitize input is returned unchanged. -/
theorem sanitize_no_zero_no_dup (IT : ITm) (hWF : WF IT) :
    (sanitizeEmptied IT = true → sanitizeIT IT = IT) ∧
    (sanitizeEmptied IT = false →
      (∀ term ∈ (sanitizeIT IT).terms, ¬ (term.all (· == 0)) = true) ∧
      ((sanitizeIT IT).terms.zip (sanitizeIT IT).funcs).Nodup) :=
  ⟨sanitize_revert IT, sanitize_clean IT hWF⟩

unseal Rat.add Rat.mul Rat.inv Rat.sub in
/-- Witness for `sanitize_no_zero_no_dup` on a model with one duplicated
pair. -/
theorem sanitize_no_zero_no_dup_witness :
    (WF dupPairIT ∧ sanitizeEmptied dupPairIT = false) ∧
    ((∀ term ∈ (sanitizeIT dupPairIT).terms, ¬ (term.all (· == 0)) = true) ∧
      ((sanitizeIT dupPairIT).terms.zip (sanitizeIT dupPairIT).funcs).Nodup) :=
  ⟨⟨by decide, by decide⟩,
   (sanitize_no_zero_no_dup dupPairIT (by decide)).2 (by decide)⟩

/-- Membership in the duplicate scan's filter yields a `dupMatch`. -/
theorem dupMatch_of_filter_mem (IT : ITm) (t b : ℕ)
    (hb : b ∈ (List.range' (t + 1) (IT.length - (t + 1))).filter fun i =>
      zipEqInt (IT.terms.getD t []) (IT.terms.getD i []) &&
        (IT.funcs.getD t Fn.id == IT.funcs.getD i Fn.id)) :
    dupMatch IT t b := by
  rcases List.mem_filter.mp hb with ⟨hbr, hcond⟩
  have hrange := List.mem_range'_1.mp hbr
  rcases Bool.and_eq_true_iff.mp hcond with ⟨hzip, hfeq⟩
  exact ⟨by omega, by omega, hzip, beq_iff_eq.mp hfeq⟩

/-- When `(i, j)` is the only duplicated pair, every index is pushed onto
`toRemove` at most once, in strictly increasing order. -/
theorem toRemove_pairwise_lt_of_uniq (IT : ITm) (i j : ℕ)
    (huniq : ∀ a < IT.length, ∀ b < IT.length,
      dupMatch IT a b → a = i ∧ b = j) :
    (toRemoveList IT).Pairwise (· < ·) := by
  refine pairwise_flatMap_lt _ (toRemove_batch_all_eq IT) ?_ _
  intro t
  by_cases hz : (IT.terms.getD t []).all (· == 0) = true
  · rw [if_pos hz]
    simp
  · rw [if_neg hz, List.length_map]
    cases hfl : (List.range' (t + 1) (IT.length - (t + 1))).filter (fun b =>
      zipEqInt (IT.terms.getD t []) (IT.terms.getD b []) &&
        (IT.funcs.getD t Fn.id == IT.funcs.getD b Fn.id)) with
    | nil => simp
    | cons b1 rest =>
      cases rest with
      | nil => simp
      | cons b2 rest2 =>
        exfalso
        have hnd_f : ((List.range' (t + 1) (IT.length - (t + 1))).filter
            (fun b => zipEqInt (IT.terms.getD t []) (IT.terms.getD b []) &&
              (IT.funcs.getD t Fn.id == IT.funcs.getD b Fn.id))).Nodup :=
          (List.nodup_range' ..).filter _
        rw [hfl] at hnd_f
        have hne12 : b1 ≠ b2 := by
          intro he
          exact (List.nodup_cons.mp hnd_f).1
            (he ▸ List.mem_cons_self b2 rest2)
        have h1 : dupMatch IT t b1 :=
          dupMatch_of_filter_mem IT t b1 (hfl ▸ List.mem_cons_self _ _)
        have h2 : dupMatch IT t b2 :=
          dupMatch_of_filter_mem IT t b2
            (hfl ▸ List.mem_cons_of_mem _ (List.mem_cons_self _ _))
        have e1 := huniq t (lt_trans h1.1 h1.2.1) b1 h1.2.1 h1
        have e2 := huniq t (lt_trans h2.1 h2.2.1) b2 h2.2.1 h2
        exact hne12 (e1.2.trans e2.2.symm)

/-- Under the unique-duplicate hypothesis the kept positions are exactly the
unmarked ones. -/
theorem keptIdx_filter_of_uniq (IT : ITm) (i j : ℕ)
    (huniq : ∀ a < IT.length, ∀ b < IT.length,
      dupMatch IT a b → a = i ∧ b = j) :
    keptIdx IT = (List.range IT.terms.length).filter
      (fun x => !((toRemoveList IT).reverse.contains x)) := by
  apply eraseFold_nodup_eq_filter
  · exact List.nodup_range _
  · rw [List.pairwise_reverse]
    exact toRemove_pairwise_lt_of_uniq IT i j huniq
  · intro v hv
    have hvm := List.mem_reverse.mp hv
    have hvlt := ((toRemove_mem_iff IT v).mp hvm).1
    exact ⟨by simpa using hvlt, by simp⟩

/-- C3 (amended): when two terms at indices `i < j` carry equal (non-zero)
exponent vectors and equal functions, and `(i, j)` is the only duplicated
pair of the model, `sanitizeIT` removes the EARLIER index `i` and keeps the
LATER index `j`: the returned coefficients are exactly those at the kept
original positions, which include `j` and exclude `i`. -/
theorem sanitize_keeps_later (IT : ITm) (i j : ℕ) (hWF : WF IT) (hij : i < j)
    (hjl : j < IT.length)
    (hterm : IT.terms.getD i [] = IT.terms.getD j [])
    (hfunc : IT.funcs.getD i Fn.id = IT.funcs.getD j Fn.id)
    (hnz : ¬ zeroTermAt IT i)
    (huniq : ∀ a < IT.length, ∀ b < IT.length,
      dupMatch IT a b → a = i ∧ b = j) :
    i ∉ keptIdx IT ∧ j ∈ keptIdx IT ∧
    (sanitizeIT IT).coeffs =
      (keptIdx IT).map (fun v => IT.coeffs.getD v .nan) := by
  have hn : IT.terms.length = IT.length := hWF.1
  have hdm : dupMatch IT i j := ⟨hij, hjl, zipEqInt_of_eq hterm, hfunc⟩
  have hiR : i ∈ toRemoveList IT :=
    (toRemove_mem_iff IT i).mpr ⟨by omega, Or.inr ⟨j, hdm⟩⟩
  have hiK : i ∉ keptIdx IT := keptIdx_not_marked IT i hiR
  have hjR : j ∉ toRemoveList IT := by
    intro hjmem
    rcases ((toRemove_mem_iff IT j).mp hjmem).2 with hz | ⟨b, hb⟩
    · refine hnz ?_
      unfold zeroTermAt at hz ⊢
      rw [hterm]
      exact hz
    · have := huniq j (by omega) b hb.2.1 hb
      omega
  have hjK : j ∈ keptIdx IT := by
    rw [keptIdx_filter_of_uniq IT i j huniq]
    refine List.mem_filter.mpr ⟨List.mem_range.mpr (by omega), ?_⟩
    simp [List.mem_reverse, hjR]
  have hne : sanitizeEmptied IT = false := by
    unfold sanitizeEmptied
    rw [eraseFold_keptIdx IT IT.terms [] rfl]
    have hnil : keptIdx IT ≠ [] := by
      intro he
      rw [he] at hjK
      exact (List.not_mem_nil j) hjK
    simpa [List.length_map, List.length_eq_zero] using hnil
  exact ⟨hiK, hjK, (sanitize_fields IT hWF hne).2.2.1⟩

/-- Concrete model for the `sanitize_keeps_later` witness: the duplicated
pair sits at indices `0` and `2`. -/
def laterIT : ITm :=
  { terms := [[1], [2], [1]], funcs := [.id, .id, .id]
    coeffs := [num 1, num 2, num 3], length := 3 }

unseal Rat.add Rat.mul Rat.inv Rat.sub in
/-- Witness for `sanitize_keeps_later` at `laterIT` with `i = 0`, `j = 2`. -/
theorem sanitize_keeps_later_witness :
    (WF laterIT ∧ 0 < 2 ∧ 2 < laterIT.length ∧
      laterIT.terms.getD 0 [] = laterIT.terms.getD 2 [] ∧
      laterIT.funcs.getD 0 Fn.id = laterIT.funcs.getD 2 Fn.id ∧
      ¬ zeroTermAt laterIT 0 ∧
      (∀ a < laterIT.length, ∀ b < laterIT.length,
        dupMatch laterIT a b → a = 0 ∧ b = 2)) ∧
    (0 ∉ keptIdx laterIT ∧ 2 ∈ keptIdx laterIT ∧
      (sanitizeIT laterIT).coeffs =
        (keptIdx laterIT).map (fun v => laterIT.coeffs.getD v .nan)) :=
  ⟨⟨by decide, by decide, by decide, by decide, by decide, by decide,
    by decide⟩,
   sanitize_keeps_later laterIT 0 2 (by decide) (by decide) (by decide)
     (by decide) (by decide) (by decide) (by decide)⟩

/-- A finite `JsVal` is a `num`. -/
theorem finite_iff_num (v : JsVal) : v.finite = true ↔ ∃ q, v = num q := by
  cases v <;> simp [JsVal.finite]

/-- The score pipeline always produces a finite value (`0` otherwise). -/
theorem scoreOf_finite (I : FnInterp) (IT : ITm) (Xs : List (List ℚ))
    (ys : List ℚ) : (scoreOf I IT Xs ys).finite = true := by
  unfold scoreOf
  by_cases h : (JsVal.div (num 1)
      (JsVal.add (num 1) (maeOf I IT Xs ys))).finite = true
  · rw [if_pos h]
    exact h
  · rw [if_neg h]
    rfl

/-- A fitted model always carries a finite (numeric) score. -/
theorem fitIT_score_finite (I : FnInterp) (IT : ITm) (Xs : List (List ℚ))
    (ys : List ℚ) : (fitIT I IT Xs ys).score.finite = true := by
  unfold fitIT
  cases hns : normalSolve (designMatrix I IT Xs) (ys.map fun y => [num y]) <;>
    simp [hns] <;> exact scoreOf_finite I _ Xs ys

/-- `>` on finite values is the rational order. -/
theorem jsGt_num_iff (a b : ℚ) : JsVal.gt (num a) (num b) = true ↔ b < a := by
  simp [JsVal.gt, JsVal.lt]

/-- `pivotSearch` returns one row fewer than it was given. -/
theorem pivotSearch_length (c : ℕ) :
    ∀ (l : List (List JsVal)) (p : List JsVal) (rest : List (List JsVal)),
      pivotSearch c l = some (p, rest) → rest.length + 1 = l.length := by
  intro l
  induction l with
  | nil => intro p rest h; simp [pivotSearch] at h
  | cons r rs ih =>
    intro p rest h
    rw [pivotSearch] at h
    by_cases hc : (r.getD c (num 0) == num 0) = true
    · rw [if_pos hc] at h
      cases hps : pivotSearch c rs with
      | none => rw [hps] at h; simp at h
      | some pr =>
        obtain ⟨p1, r1⟩ := pr
        rw [hps] at h
        simp only [Option.map_some', Option.some.injEq, Prod.mk.injEq] at h
        obtain ⟨he1, he2⟩ := h
        subst he2
        have := ih _ _ hps
        simp only [List.length_cons]
        omega
    · rw [if_neg hc] at h
      simp only [Option.some.injEq, Prod.mk.injEq] at h
      rw [← h.2]
      simp

/-- Equation: `gjGo` on an empty pending list. -/
theorem gjGo_nil (fuel c : ℕ) (done : List (List JsVal)) :
    gjGo fuel [] c done = some done := by
  cases fuel <;> rfl

/-- Equation: `gjGo` out of fuel. -/
theorem gjGo_zero_cons (p : List JsVal) (ps : List (List JsVal)) (c : ℕ)
    (done : List (List JsVal)) : gjGo 0 (p :: ps) c done = none := rfl

/-- Equation: one `gjGo` step. -/
theorem gjGo_succ_cons (fuel : ℕ) (p : List JsVal) (ps : List (List JsVal))
    (c : ℕ) (done : List (List JsVal)) :
    gjGo (fuel + 1) (p :: ps) c done =
      match pivotSearch c (p :: ps) with
      | none => none
      | some (piv, rest) =>
        gjGo fuel
          (rest.map (elimRow (piv.map fun a => JsVal.div a (piv.getD c (num 0))) c))
          (c + 1)
          ((done.map (elimRow (piv.map fun a => JsVal.div a (piv.getD c (num 0))) c))
            ++ [piv.map fun a => JsVal.div a (piv.getD c (num 0))]) := rfl

/-- `gjGo` returns one finished row per input row. -/
theorem gjGo_length :
    ∀ (fuel : ℕ) (pending : List (List JsVal)) (c : ℕ)
      (done rows : List (List JsVal)),
      gjGo fuel pending c done = some rows →
      rows.length = done.length + pending.length := by
  intro fuel
  induction fuel with
  | zero =>
    intro pending c done rows h
    cases pending with
    | nil => rw [gjGo_nil] at h; cases h; simp
    | cons p ps => rw [gjGo_zero_cons] at h; simp at h
  | succ fuel ih =>
    intro pending c done rows h
    cases pending with
    | nil => rw [gjGo_nil] at h; cases h; simp
    | cons p ps =>
      rw [gjGo_succ_cons] at h
      cases hps : pivotSearch c (p :: ps) with
      | none => rw [hps] at h; simp at h
      | some pr =>
        obtain ⟨p1, r1⟩ := pr
        rw [hps] at h
        have hlen := pivotSearch_length c (p :: ps) p1 r1 hps
        have hrec := ih _ _ _ _ h
        rw [hrec]
        simp only [List.length_map, List.length_append, List.length_cons,
          List.length_nil]
        simp only [List.length_cons] at hlen
        omega

/-- `matInv` preserves the row count. -/
theorem matInv_length (m inv : List (List JsVal))
    (h : matInv m = some inv) : inv.length = m.length := by
  simp only [matInv] at h
  cases hg : gjGo m.length (m.enum.map fun ir => ir.2 ++ idRow m.length ir.1)
      0 [] with
  | none => rw [hg] at h; simp at h
  | some rows =>
    rw [hg] at h
    simp only [Option.map_some', Option.some.injEq] at h
    rw [← h]
    have := gjGo_length m.length _ 0 [] rows hg
    simp only [List.length_map, List.length_nil, Nat.zero_add,
      List.enum_length] at this ⊢
    omega

/-- `transposeL` has one row per column of its input. -/
theorem transposeL_length (m : List (List JsVal)) :
    (transposeL m).length = (m.headD []).length := by
  simp [transposeL]

/-- `matMul` has one row per row of its left factor. -/
theorem matMul_length (a b : List (List JsVal)) :
    (matMul a b).length = a.length := by
  simp [matMul]

/-- On a non-empty dataset, a successful `normalSolve` returns one weight
per term. -/
theorem normalSolve_length (I : FnInterp) (IT : ITm) (X0 : List ℚ)
    (Xs2 : List (List ℚ)) (ys : List ℚ) (ws : List JsVal) (hWF : WF IT)
    (h : normalSolve (designMatrix I IT (X0 :: Xs2)) (ys.map fun y => [num y])
      = some ws) :
    ws.length = IT.length := by
  simp only [normalSolve] at h
  cases hinv : matInv (matMul (transposeL (designMatrix I IT (X0 :: Xs2)))
      (designMatrix I IT (X0 :: Xs2))) with
  | none => rw [hinv] at h; simp at h
  | some q1 =>
    rw [hinv] at h
    simp only [Option.map_some', Option.some.injEq] at h
    have hq1 := matInv_length _ _ hinv
    rw [matMul_length, transposeL_length] at hq1
    have hhead : ((designMatrix I IT (X0 :: Xs2)).headD []).length
        = IT.length := by
      unfold designMatrix
      simp only [List.map_cons, List.headD_cons, List.length_map,
        List.length_zip]
      rw [hWF.2.1, hWF.1]
      exact Nat.min_self _
    rw [← h, List.length_map, matMul_length, hq1, hhead]

/-- On a non-empty dataset, `fitIT` preserves well-formedness. -/
theorem fitIT_WF (I : FnInterp) (IT : ITm) (X0 : List ℚ)
    (Xs2 : List (List ℚ)) (ys : List ℚ) (hWF : WF IT) :
    WF (fitIT I IT (X0 :: Xs2) ys) := by
  unfold fitIT
  cases hns : normalSolve (designMatrix I IT (X0 :: Xs2))
      (ys.map fun y => [num y]) with
  | none => simp only [hns]; exact hWF
  | some ws =>
    simp only [hns]
    exact ⟨hWF.1, hWF.2.1, normalSolve_length I IT X0 Xs2 ys ws hWF hns⟩

/-- `getD` below the length is a member. -/
theorem getD_mem_of_lt {α : Type} (l : List α) (v : ℕ) (d : α)
    (h : v < l.length) : l.getD v d ∈ l := by
  rw [List.getD_eq_getElem l d h]
  exact List.getElem_mem h

/-- `getD` after `set` at a different position. -/
theorem getD_set_ne {α : Type} (l : List α) (m p : ℕ) (x d : α)
    (h : m ≠ p) : (l.set m x).getD p d = l.getD p d := by
  rw [List.getD_eq_getElem?_getD, List.getD_eq_getElem?_getD,
    List.getElem?_set_ne h]

/-- `getD` after `set` at the written position. -/
theorem getD_set_self {α : Type} (l : List α) (m : ℕ) (x d : α)
    (h : m < l.length) : (l.set m x).getD m d = x := by
  rw [List.getD_eq_getElem?_getD, List.getElem?_set_self h]
  rfl

/-- On equal-length vectors the source's prefix test is genuine equality. -/
theorem zipEqInt_to_eq :
    ∀ (a b : List ℤ), a.length = b.length → zipEqInt a b = true → a = b := by
  intro a
  induction a with
  | nil =>
    intro b hlen _
    cases b with
    | nil => rfl
    | cons y b' => simp at hlen
  | cons x a' ih =>
    intro b hlen h
    cases b with
    | nil => simp at hlen
    | cons y b' =>
      simp only [zipEqInt, List.zip_cons_cons, List.all_cons,
        Bool.and_eq_true, beq_iff_eq] at h
      have hrec : a' = b' := by
        refine ih b' (by simpa using hlen) ?_
        unfold zipEqInt
        exact h.2
      rw [h.1, hrec]

/-- One splice removes at most one element. -/
theorem length_le_eraseIdx_succ {α : Type} (l : List α) (i : ℕ) :
    l.length ≤ (l.eraseIdx i).length + 1 := by
  rw [List.length_eraseIdx]
  split <;> omega

/-- The splice fold removes at most one element per listed index. -/
theorem eraseFold_length_ge {α : Type} :
    ∀ (ds : List ℕ) (l : List α),
      l.length ≤ (eraseFold l ds).length + ds.length := by
  intro ds
  induction ds with
  | nil => intro l; simp [eraseFold]
  | cons d ds ih =>
    intro l
    rw [eraseFold_cons]
    have h1 := length_le_eraseIdx_succ l d
    have h2 := ih (l.eraseIdx d)
    simp only [List.length_cons]
    omega

/-- A duplicate-free list of copies of one value has at most one element. -/
theorem nodup_all_eq_length_le_one {l : List ℕ} {c : ℕ} (hnd : l.Nodup)
    (h : ∀ x ∈ l, x = c) : l.length ≤ 1 := by
  match l with
  | [] => simp
  | [x] => simp
  | x :: y :: rest =>
    exfalso
    have hx : x = c := h x (List.mem_cons_self _ _)
    have hy : y = c := h y (List.mem_cons_of_mem _ (List.mem_cons_self _ _))
    exact (List.nodup_cons.mp hnd).1
      ((hx.trans hy.symm) ▸ List.mem_cons_self y rest)

/-- When the splice pass does not empty the model, `sanitizeIT` is
well-formed. -/
theorem sanitize_WF (IT : ITm) (hWF : WF IT)
    (hne : sanitizeEmptied IT = false) : WF (sanitizeIT IT) := by
  obtain ⟨ht, hf, hc, hl, _⟩ := sanitize_fields IT hWF hne
  refine ⟨?_, ?_, ?_⟩ <;> rw [hl] <;> simp [ht, hf, hc]

/-- When the splice pass does not empty the model, the sanitized model keeps
at least one term. -/
theorem sanitize_length_pos (IT : ITm) (hWF : WF IT)
    (hne : sanitizeEmptied IT = false) : 1 ≤ (sanitizeIT IT).length := by
  obtain ⟨_, _, _, hl, _⟩ := sanitize_fields IT hWF hne
  unfold sanitizeEmptied at hne
  have h0 : ¬ (eraseFold IT.terms (toRemoveList IT).reverse).length = 0 := by
    simpa using hne
  rw [eraseFold_keptIdx IT IT.terms [] rfl, List.length_map] at h0
  omega

/-- Sanitizing preserves the per-term variable count. -/
theorem sanitize_WFvars (nvars : ℕ) (IT : ITm)
    (hvars : WFvars nvars IT) : WFvars nvars (sanitizeIT IT) := by
  intro t ht
  unfold sanitizeIT at ht
  by_cases h0 : (eraseFold IT.terms (toRemoveList IT).reverse).length = 0
  · rw [if_pos h0] at ht
    exact hvars t ht
  · rw [if_neg h0] at ht
    exact hvars t ((eraseFold_sublist _ _).subset ht)

/-- A well-formed, non-empty model without all-zero vectors and with at most
one duplicated pair cannot reach `sanitizeIT`'s empty-revert path. -/
theorem sanitizeEmptied_false (IT : ITm) (hWF : WF IT) (hlen : 1 ≤ IT.length)
    (hnz : ∀ term ∈ IT.terms, ¬ term.all (· == 0) = true)
    (huniq : ∀ a b a2 b2, dupMatch IT a b → dupMatch IT a2 b2 →
      a = a2 ∧ b = b2) :
    sanitizeEmptied IT = false := by
  have hdup : ∀ v ∈ toRemoveList IT, ∃ b, dupMatch IT v b := by
    intro v hv
    rcases (toRemove_mem_iff IT v).mp hv with ⟨hvlt, hz | hd⟩
    · exact absurd hz (hnz _ (getD_mem_of_lt IT.terms v [] hvlt))
    · exact hd
  by_cases hex : ∃ a b, dupMatch IT a b
  · obtain ⟨i, j, hij⟩ := hex
    have hiq : ∀ a < IT.length, ∀ b < IT.length,
        dupMatch IT a b → a = i ∧ b = j := by
      intro a _ b _ hab
      have := huniq a b i j hab hij
      exact this
    have hpw := toRemove_pairwise_lt_of_uniq IT i j hiq
    have hnd : (toRemoveList IT).Nodup := hpw.imp fun h => ne_of_lt h
    have halli : ∀ v ∈ toRemoveList IT, v = i := by
      intro v hv
      obtain ⟨b, hb⟩ := hdup v hv
      exact (huniq v b i j hb hij).1
    have hle1 : (toRemoveList IT).length ≤ 1 :=
      nodup_all_eq_length_le_one hnd halli
    have hge2 : 2 ≤ IT.terms.length := by
      have h1 := hij.1
      have h2 := hij.2.1
      rw [hWF.1]
      omega
    have hef := eraseFold_length_ge (toRemoveList IT).reverse IT.terms
    rw [List.length_reverse] at hef
    unfold sanitizeEmptied
    rw [beq_eq_false_iff_ne]
    intro hcontra
    rw [hcontra] at hef
    omega
  · have hnil : toRemoveList IT = [] := by
      rw [List.eq_nil_iff_forall_not_mem]
      intro v hv
      obtain ⟨b, hb⟩ := hdup v hv
      exact hex ⟨v, b, hb⟩
    unfold sanitizeEmptied
    rw [hnil, List.reverse_nil, beq_eq_false_iff_ne]
    show ¬ IT.terms.length = 0
    rw [hWF.1]
    omega

/-- Replacing one term (and its function) of a good model yields a model
whose pairs collide in at most one way, so `sanitizeIT` cannot empty it:
the core of the `ITLS` neighbourhood analysis. -/
theorem neighbor_ok_core (best : ITm) (nvars : ℕ) (hgood : GoodBest nvars best)
    (m : ℕ) (hm : m < best.length) (t2 : List ℤ) (f2 : Fn)
    (ht2len : t2.length = nvars) (hz : ¬ t2.all (· == 0) = true) :
    NeighborOK nvars { best with terms := best.terms.set m t2
                                 funcs := best.funcs.set m f2 } := by
  unfold GoodBest at hgood
  obtain ⟨hWF, hvars, hlen1, hnz, hnd, _⟩ := hgood
  have hmt : m < best.terms.length := by rw [hWF.1]; exact hm
  have hmf : m < best.funcs.length := by rw [hWF.2.1]; exact hm
  have hWF2 : WF { best with terms := best.terms.set m t2
                             funcs := best.funcs.set m f2 } := by
    refine ⟨?_, ?_, ?_⟩ <;>
      simp only [List.length_set] <;>
      first
        | exact hWF.1
        | exact hWF.2.1
        | exact hWF.2.2
  have hv2 : WFvars nvars { best with terms := best.terms.set m t2
                                      funcs := best.funcs.set m f2 } := by
    intro t ht
    rcases List.mem_or_eq_of_mem_set ht with h | h
    · exact hvars t h
    · rw [h]; exact ht2len
  have hnz2 : ∀ term ∈ best.terms.set m t2, ¬ term.all (· == 0) = true := by
    intro term hterm
    rcases List.mem_or_eq_of_mem_set hterm with h | h
    · exact hnz term h
    · rw [h]; exact hz
  have hTne : ∀ p, m ≠ p →
      (best.terms.set m t2).getD p [] = best.terms.getD p [] :=
    fun p hp => getD_set_ne best.terms m p t2 [] hp
  have hFne : ∀ p, m ≠ p →
      (best.funcs.set m f2).getD p Fn.id = best.funcs.getD p Fn.id :=
    fun p hp => getD_set_ne best.funcs m p f2 Fn.id hp
  have hTm : (best.terms.set m t2).getD m [] = t2 :=
    getD_set_self best.terms m t2 [] hmt
  have hFm : (best.funcs.set m f2).getD m Fn.id = f2 :=
    getD_set_self best.funcs m f2 Fn.id hmf
  have hzlen : (best.terms.zip best.funcs).length = best.length := by
    rw [List.length_zip, hWF.1, hWF.2.1]
    exact Nat.min_self _
  have distinctBest : ∀ p q, p < best.length → q < best.length →
      best.terms.getD p [] = best.terms.getD q [] →
      best.funcs.getD p Fn.id = best.funcs.getD q Fn.id → p = q := by
    intro p q hp hq ht hf
    have hp2 : p < best.terms.length := by rw [hWF.1]; exact hp
    have hq2 : q < best.terms.length := by rw [hWF.1]; exact hq
    have hpf : p < best.funcs.length := by rw [hWF.2.1]; exact hp
    have hqf : q < best.funcs.length := by rw [hWF.2.1]; exact hq
    have hpz : p < (best.terms.zip best.funcs).length := by omega
    have hqz : q < (best.terms.zip best.funcs).length := by omega
    have hElem : (best.terms.zip best.funcs)[p] =
        (best.terms.zip best.funcs)[q] := by
      rw [List.getElem_zip, List.getElem_zip]
      have h1 : best.terms[p] = best.terms[q] := by
        rw [← List.getD_eq_getElem best.terms [] hp2,
          ← List.getD_eq_getElem best.terms [] hq2]
        exact ht
      have h2 : best.funcs[p] = best.funcs[q] := by
        rw [← List.getD_eq_getElem best.funcs Fn.id hpf,
          ← List.getD_eq_getElem best.funcs Fn.id hqf]
        exact hf
      rw [h1, h2]
    exact hnd.getElem_inj_iff.mp hElem
  have matchEq : ∀ a b,
      dupMatch { best with terms := best.terms.set m t2
                           funcs := best.funcs.set m f2 } a b →
      a < b ∧ b < best.length ∧
        (best.terms.set m t2).getD a [] = (best.terms.set m t2).getD b [] ∧
        (best.funcs.set m f2).getD a Fn.id =
          (best.funcs.set m f2).getD b Fn.id := by
    intro a b hab
    unfold dupMatch at hab
    obtain ⟨h1, h2, h3, h4⟩ := hab
    refine ⟨h1, h2, ?_, h4⟩
    have hb2 : b < (best.terms.set m t2).length := by
      rw [List.length_set, hWF.1]
      exact h2
    have ha2 : a < (best.terms.set m t2).length := lt_trans h1 hb2
    refine zipEqInt_to_eq _ _ ?_ h3
    rw [hv2 _ (getD_mem_of_lt _ a [] ha2), hv2 _ (getD_mem_of_lt _ b [] hb2)]
  have involves : ∀ a b, a < b → b < best.length →
      (best.terms.set m t2).getD a [] = (best.terms.set m t2).getD b [] →
      (best.funcs.set m f2).getD a Fn.id =
        (best.funcs.set m f2).getD b Fn.id →
      a = m ∨ b = m := by
    intro a b hab hb ht hf
    by_contra hcon
    push_neg at hcon
    obtain ⟨ham, hbm⟩ := hcon
    have hma : m ≠ a := fun h => ham h.symm
    have hmb : m ≠ b := fun h => hbm h.symm
    rw [hTne a hma, hTne b hmb] at ht
    rw [hFne a hma, hFne b hmb] at hf
    have := distinctBest a b (lt_trans hab hb) hb ht hf
    omega
  have partner : ∀ p, p ≠ m → p < best.length →
      (best.terms.set m t2).getD p [] = t2 →
      (best.funcs.set m f2).getD p Fn.id = f2 →
      ∀ q, q ≠ m → q < best.length →
      (best.terms.set m t2).getD q [] = t2 →
      (best.funcs.set m f2).getD q Fn.id = f2 → p = q := by
    intro p hpm hp htp hfp q hqm hq htq hfq
    have hmp : m ≠ p := fun h => hpm h.symm
    have hmq : m ≠ q := fun h => hqm h.symm
    rw [hTne p hmp] at htp
    rw [hTne q hmq] at htq
    rw [hFne p hmp] at hfp
    rw [hFne q hmq] at hfq
    exact distinctBest p q hp hq (htp.trans htq.symm) (hfp.trans hfq.symm)
  have huniq : ∀ a b a2 b2,
      dupMatch { best with terms := best.terms.set m t2
                           funcs := best.funcs.set m f2 } a b →
      dupMatch { best with terms := best.terms.set m t2
                           funcs := best.funcs.set m f2 } a2 b2 →
      a = a2 ∧ b = b2 := by
    intro a b a2 b2 h1 h2
    obtain ⟨hab, hbL, hT1, hF1⟩ := matchEq a b h1
    obtain ⟨hab2, hbL2, hT2, hF2⟩ := matchEq a2 b2 h2
    rcases involves a b hab hbL hT1 hF1 with h1m | h1m <;>
      rcases involves a2 b2 hab2 hbL2 hT2 hF2 with h2m | h2m
    · have hbm : b ≠ m := by omega
      have hb2m : b2 ≠ m := by omega
      rw [h1m, hTm] at hT1
      rw [h1m, hFm] at hF1
      rw [h2m, hTm] at hT2
      rw [h2m, hFm] at hF2
      exact ⟨h1m.trans h2m.symm,
        partner b hbm hbL hT1.symm hF1.symm b2 hb2m hbL2 hT2.symm hF2.symm⟩
    · have hbm : b ≠ m := by omega
      have ha2m : a2 ≠ m := by omega
      rw [h1m, hTm] at hT1
      rw [h1m, hFm] at hF1
      rw [h2m, hTm] at hT2
      rw [h2m, hFm] at hF2
      exfalso
      have := partner b hbm hbL hT1.symm hF1.symm a2 ha2m
        (lt_trans hab2 hbL2) hT2 hF2
      omega
    · have ham : a ≠ m := by omega
      have hb2m : b2 ≠ m := by omega
      rw [h1m, hTm] at hT1
      rw [h1m, hFm] at hF1
      rw [h2m, hTm] at hT2
      rw [h2m, hFm] at hF2
      exfalso
      have := partner a ham (lt_trans hab hbL) hT1 hF1 b2 hb2m hbL2
        hT2.symm hF2.symm
      omega
    · have ham : a ≠ m := by omega
      have ha2m : a2 ≠ m := by omega
      rw [h1m, hTm] at hT1
      rw [h1m, hFm] at hF1
      rw [h2m, hTm] at hT2
      rw [h2m, hFm] at hF2
      exact ⟨partner a ham (lt_trans hab hbL) hT1 hF1 a2 ha2m
        (lt_trans hab2 hbL2) hT2 hF2, h1m.trans h2m.symm⟩
  exact ⟨hWF2, hv2, sanitizeEmptied_false _ hWF2 hlen1 hnz2 huniq⟩

/-- Every `ITLS` neighbour of a good best is well-formed, respects the
variable count, and cannot reach `sanitizeIT`'s empty-revert path. -/
theorem neighbor_ok (best : ITm) (nvars : ℕ) (hgood : GoodBest nvars best) :
    ∀ n ∈ itlsNeighbors best nvars, NeighborOK nvars n := by
  intro n hn
  unfold itlsNeighbors at hn
  rcases List.mem_flatMap.mp hn with ⟨m, hm, hn2⟩
  rcases List.mem_flatMap.mp hn2 with ⟨op, hop, hn3⟩
  rcases List.mem_flatMap.mp hn3 with ⟨tI, htI, hn4⟩
  rcases List.mem_filterMap.mp hn4 with ⟨inc, hinc, hsome⟩
  simp only [copyIT] at hsome
  have hmlt : m < best.length := List.mem_range.mp hm
  have hmt : m < best.terms.length := by rw [hgood.1.1]; exact hmlt
  by_cases hz : ((best.terms.getD m []).set tI
      ((best.terms.getD m []).getD tI 0 + inc)).all (· == 0) = true
  · rw [if_pos hz] at hsome
    exact absurd hsome (by simp)
  · rw [if_neg hz] at hsome
    have heq := Option.some.inj hsome
    subst heq
    refine neighbor_ok_core best nvars hgood m hmlt _ _ ?_ hz
    rw [List.length_set]
    exact hgood.2.1 _ (getD_mem_of_lt best.terms m [] hmt)

/-- Fitting the sanitized form of an acceptable neighbour on a non-empty
dataset yields a good model. -/
theorem adopted_good (I : FnInterp) (X0 : List ℚ) (Xs2 : List (List ℚ))
    (ys : List ℚ) (nvars : ℕ) (n : ITm) (hok : NeighborOK nvars n) :
    GoodBest nvars (fitIT I (sanitizeIT n) (X0 :: Xs2) ys) := by
  unfold NeighborOK at hok
  obtain ⟨hWF, hvars, hne⟩ := hok
  have hsWF : WF (sanitizeIT n) := sanitize_WF n hWF hne
  have hclean := sanitize_clean n hWF hne
  unfold GoodBest
  refine ⟨fitIT_WF I (sanitizeIT n) X0 Xs2 ys hsWF, ?_, ?_, ?_, ?_,
    fitIT_score_finite I (sanitizeIT n) (X0 :: Xs2) ys⟩
  · intro t ht
    rw [fitIT_terms] at ht
    exact sanitize_WFvars nvars n hvars t ht
  · rw [fitIT_length]
    exact sanitize_length_pos n hWF hne
  · intro term hterm
    rw [fitIT_terms] at hterm
    exact hclean.1 term hterm
  · rw [fitIT_terms, fitIT_funcs]
    exact hclean.2

/-- Equation: scanning an empty neighbour list. -/
theorem itlsScan_nil (I : FnInterp) (Xs : List (List ℚ)) (ys : List ℚ)
    (s : ℚ) (best : ITm) : itlsScan I Xs ys s [] best = (best, false) := rfl

/-- Equation: one scan step, lets expanded. -/
theorem itlsScan_cons (I : FnInterp) (Xs : List (List ℚ)) (ys : List ℚ)
    (s : ℚ) (ng : ITm) (rest : List ITm) (best : ITm) :
    itlsScan I Xs ys s (ng :: rest) best =
      (if JsVal.ge (if JsVal.gt (fitIT I (sanitizeIT ng) Xs ys).score best.score
          then (if sanitizeEmptied ng then huskIT ng
            else fitIT I (sanitizeIT ng) Xs ys)
          else best).score (num s)
        then ((if JsVal.gt (fitIT I (sanitizeIT ng) Xs ys).score best.score
          then (if sanitizeEmptied ng then huskIT ng
            else fitIT I (sanitizeIT ng) Xs ys)
          else best), true)
        else itlsScan I Xs ys s rest
          (if JsVal.gt (fitIT I (sanitizeIT ng) Xs ys).score best.score
            then (if sanitizeEmptied ng then huskIT ng
              else fitIT I (sanitizeIT ng) Xs ys)
            else best)) := rfl

/-- The neighbour scan preserves goodness and never lowers the tracked
score when every scanned neighbour is acceptable. -/
theorem itlsScan_good (I : FnInterp) (X0 : List ℚ) (Xs2 : List (List ℚ))
    (ys : List ℚ) (nvars : ℕ) (stopScore : ℚ) :
    ∀ (neighs : List ITm) (best : ITm),
      (∀ n ∈ neighs, NeighborOK nvars n) → GoodBest nvars best →
      GoodBest nvars (itlsScan I (X0 :: Xs2) ys stopScore neighs best).1 ∧
      ∃ a b : ℚ, best.score = num a ∧
        (itlsScan I (X0 :: Xs2) ys stopScore neighs best).1.score = num b ∧
        a ≤ b := by
  intro neighs
  induction neighs with
  | nil =>
    intro best _ hg
    have hg2 := hg
    unfold GoodBest at hg2
    obtain ⟨a, ha⟩ := (finite_iff_num best.score).mp hg2.2.2.2.2.2
    exact ⟨hg, a, a, ha, ha, le_refl a⟩
  | cons ng rest ih =>
    intro best hok hg
    have hokng := hok ng (List.mem_cons_self _ _)
    have hok2 : ∀ n ∈ rest, NeighborOK nvars n :=
      fun n hn => hok n (List.mem_cons_of_mem _ hn)
    have hfit : GoodBest nvars (fitIT I (sanitizeIT ng) (X0 :: Xs2) ys) :=
      adopted_good I X0 Xs2 ys nvars ng hokng
    have hne2 : ¬ sanitizeEmptied ng = true := by
      have := hokng
      unfold NeighborOK at this
      simp [this.2.2]
    have hg2 := hg
    unfold GoodBest at hg2
    obtain ⟨a, ha⟩ := (finite_iff_num best.score).mp hg2.2.2.2.2.2
    obtain ⟨c, hc⟩ := (finite_iff_num _).mp
      (fitIT_score_finite I (sanitizeIT ng) (X0 :: Xs2) ys)
    rw [itlsScan_cons, if_neg hne2]
    by_cases hgt : JsVal.gt (fitIT I (sanitizeIT ng) (X0 :: Xs2) ys).score
        best.score = true
    · rw [if_pos hgt]
      have hac : a < c := by
        rw [ha, hc] at hgt
        exact (jsGt_num_iff c a).mp hgt
      by_cases hge : JsVal.ge (fitIT I (sanitizeIT ng) (X0 :: Xs2) ys).score
          (num stopScore) = true
      · rw [if_pos hge]
        exact ⟨hfit, a, c, ha, hc, le_of_lt hac⟩
      · rw [if_neg hge]
        obtain ⟨hgood3, a2, b2, ha2, hb2, hab2⟩ :=
          ih (fitIT I (sanitizeIT ng) (X0 :: Xs2) ys) hok2 hfit
        have hca2 : c = a2 := JsVal.num.inj (hc.symm.trans ha2)
        exact ⟨hgood3, a, b2, ha, hb2, by
          calc a ≤ c := le_of_lt hac
            _ = a2 := hca2
            _ ≤ b2 := hab2⟩
    · rw [if_neg hgt]
      by_cases hge : JsVal.ge best.score (num stopScore) = true
      · rw [if_pos hge]
        exact ⟨hg, a, a, ha, ha, le_refl a⟩
      · rw [if_neg hge]
        obtain ⟨hgood3, a2, b2, ha2, hb2, hab2⟩ := ih best hok2 hg
        have haa2 : a = a2 := JsVal.num.inj (ha.symm.trans ha2)
        exact ⟨hgood3, a, b2, ha, hb2, haa2 ▸ hab2⟩

/-- One `ITLS` iteration from a good best preserves goodness and never
lowers the score. -/
theorem itlsIter_good (I : FnInterp) (X0 : List ℚ) (Xs2 : List (List ℚ))
    (ys : List ℚ) (nvars : ℕ) (stopScore : ℚ) (best : ITm)
    (hg : GoodBest nvars best) :
    GoodBest nvars (itlsIter I (X0 :: Xs2) ys nvars stopScore best).1 ∧
    ∃ a b : ℚ, best.score = num a ∧
      (itlsIter I (X0 :: Xs2) ys nvars stopScore best).1.score = num b ∧
      a ≤ b :=
  itlsScan_good I X0 Xs2 ys nvars stopScore (itlsNeighbors best nvars) best
    (neighbor_ok best nvars hg) hg

/-- Equation: the iteration loop with no budget. -/
theorem itlsLoop_nil (I : FnInterp) (Xs : List (List ℚ)) (ys : List ℚ)
    (nvars : ℕ) (s : ℚ) (best : ITm) :
    itlsLoop I Xs ys nvars s [] best = best := rfl

/-- Equation: one loop pass, let expanded. -/
theorem itlsLoop_cons (I : FnInterp) (Xs : List (List ℚ)) (ys : List ℚ)
    (nvars : ℕ) (s : ℚ) (it : ℤ) (rest : List ℤ) (best : ITm) :
    itlsLoop I Xs ys nvars s (it :: rest) best =
      (if (itlsIter I Xs ys nvars s best).2
        then (itlsIter I Xs ys nvars s best).1
        else itlsLoop I Xs ys nvars s rest
          (itlsIter I Xs ys nvars s best).1) := rfl

/-- C1 (amended): in `localSearch` (`ITLS`), over any non-empty dataset and
any iteration budget, the tracked best's score never decreases, provided the
current best satisfies the invariant `GoodBest` (well-formed, non-empty, no
all-zero exponent vector, no duplicated pair, numeric score); the invariant
itself is preserved by the loop.  (In `evolutionarySearch` the tracked best
is recomputed from the new population and can strictly decrease, see the
counterexample.) -/
theorem itls_monotone (I : FnInterp) (X0 : List ℚ) (Xs2 : List (List ℚ))
    (ys : List ℚ) (nvars : ℕ) (stopScore : ℚ) (iters : List ℤ) (best : ITm)
    (hgood : GoodBest nvars best) :
    GoodBest nvars (itlsLoop I (X0 :: Xs2) ys nvars stopScore iters best) ∧
    ∃ a b : ℚ, best.score = num a ∧
      (itlsLoop I (X0 :: Xs2) ys nvars stopScore iters best).score = num b ∧
      a ≤ b := by
  induction iters generalizing best with
  | nil =>
    have hg2 := hgood
    unfold GoodBest at hg2
    obtain ⟨a, ha⟩ := (finite_iff_num best.score).mp hg2.2.2.2.2.2
    exact ⟨hgood, a, a, ha, ha, le_refl a⟩
  | cons it rest ih =>
    obtain ⟨hgood2, a, b1, ha, hb1, hab⟩ :=
      itlsIter_good I X0 Xs2 ys nvars stopScore best hgood
    rw [itlsLoop_cons]
    by_cases hp : (itlsIter I (X0 :: Xs2) ys nvars stopScore best).2 = true
    · rw [if_pos hp]
      exact ⟨hgood2, a, b1, ha, hb1, hab⟩
    · rw [if_neg hp]
      obtain ⟨hgood3, a2, b2, ha2, hb2, hab2⟩ :=
        ih (itlsIter I (X0 :: Xs2) ys nvars stopScore best).1 hgood2
      have hb1a2 : b1 = a2 := JsVal.num.inj (hb1.symm.trans ha2)
      exact ⟨hgood3, a, b2, ha, hb2, by
        calc a ≤ b1 := hab
          _ = a2 := hb1a2
          _ ≤ b2 := hab2⟩

/-- A concrete good one-term model for the `itls_monotone` witness. -/
def goodIT : ITm :=
  { terms := [[1]], funcs := [.id], coeffs := [num 1], length := 1
    score := num (1/2) }

unseal Rat.add Rat.mul Rat.inv Rat.sub in
/-- Witness for `itls_monotone` on a concrete one-variable run. -/
theorem itls_monotone_witness :
    GoodBest 1 goodIT ∧
    (GoodBest 1 (itlsLoop zeroInterp ([1] :: [[2]]) cexYs 1 2 [0] goodIT) ∧
      ∃ a b : ℚ, goodIT.score = num a ∧
        (itlsLoop zeroInterp ([1] :: [[2]]) cexYs 1 2 [0] goodIT).score =
          num b ∧ a ≤ b) :=
  ⟨by decide, itls_monotone zeroInterp [1] [[2]] cexYs 1 2 [0] goodIT
    (by decide)⟩

end SymReg
